import Mathlib

/-!
Braccio arm control panel: serial command parser and motion stepper.

A shallow embedding of `Arduino/src/main.cpp`.

Platform conventions (ATmega328P, the board family the Braccio shield is built for):
`int` is 16 bits wide, `long` and `unsigned long` are 32 bits wide, and a conversion
to a narrower signed type keeps the value modulo the width of the target.

An Arduino `String` is modelled by the list of the `length()` characters of its buffer.
A NUL byte can be among them: it is stored like any other character, and the functions
of the class that read the buffer as a C string stop in front of it.
-/

namespace Braccio

/-! ## Machine integers -/

/-- Width of `int` in bits. -/
def INT_BITS : Nat := 16

/-- Width of `long` and `unsigned long` in bits. -/
def LONG_BITS : Nat := 32

/-- Two's complement reading of an integer in `w` bits. -/
def wrapSigned (w : Nat) (x : Int) : Int :=
  (x + 2 ^ (w - 1)) % 2 ^ w - 2 ^ (w - 1)

/-- Value of an `int` expression: the mathematical result reduced to 16 bits. -/
def wrapInt (x : Int) : Int := wrapSigned INT_BITS x

/-- Value of a `long` expression: the mathematical result reduced to 32 bits. -/
def wrapLong (x : Int) : Int := wrapSigned LONG_BITS x

/-- The `abs` macro of Arduino.h, `((x)>0?(x):-(x))`, on `int`. -/
def absInt (x : Int) : Int := if x > 0 then x else wrapInt (-x)

/-- The `constrain` macro of Arduino.h, `((amt)<(low)?(low):((amt)>(high)?(high):(amt)))`. -/
def constrain (amt low high : Int) : Int :=
  if amt < low then low else if amt > high then high else amt

/-! ## The part of the `String` class and of the C library used by the sketch -/

/-- The `isspace` of the C locale: space, `\t`, `\n`, `\v`, `\f`, `\r`. -/
def isspace (c : Char) : Bool :=
  c.toNat == 32 || (9 ≤ c.toNat && c.toNat ≤ 13)

/-- The `tolower` of the C locale. -/
def tolower (c : Char) : Char :=
  if 65 ≤ c.toNat ∧ c.toNat ≤ 90 then Char.ofNat (c.toNat + 32) else c

/-- Decimal digit test, `'0' <= c && c <= '9'`. -/
def isDigitChar (c : Char) : Bool :=
  48 ≤ c.toNat && c.toNat ≤ 57

/-- The NUL byte, which ends a C string. -/
def NUL : Char := Char.ofNat 0

/-- The C string that starts a run of characters: the characters in front of the first
NUL. -/
def cstr (buffer : List Char) : List Char :=
  buffer.takeWhile (fun c => c ≠ NUL)

/-- Search of `String::indexOf` in the characters that follow position `i`. -/
def indexOfAux (ch : Char) : List Char → Nat → Option Nat
  | [], _ => none
  | c :: cs, i => if c = ch then some i else indexOfAux ch cs (i + 1)

/-- `String::indexOf(ch, fromIndex)`: the first position at or after `fromIndex`
holding `ch`; `none` stands for the result `-1`. The search is `strchr` on the buffer
from `fromIndex`, so it ends at the first NUL. -/
def indexOf (s : List Char) (ch : Char) (fromIndex : Nat) : Option Nat :=
  if fromIndex ≥ s.length then none
  else indexOfAux ch (cstr (s.drop fromIndex)) fromIndex

/-- `String::substring(left, right)`: the characters at positions `left .. right - 1`,
the two bounds being swapped when `left > right` and `right` capped at the length. The
result is assigned from the C string at `buffer + left`, cut at `right`, so it ends at
the first NUL. -/
def substring (s : List Char) (left right : Nat) : List Char :=
  let l := if left > right then right else left
  let r := if left > right then left else right
  if l ≥ s.length then []
  else
    let r2 := if r > s.length then s.length else r
    cstr ((s.take r2).drop l)

/-- `String::substring(left)`, which is `substring(left, length())`. -/
def substringFrom (s : List Char) (left : Nat) : List Char :=
  substring s left s.length

/-- `String::trim()`: whitespace removed at both ends. -/
def trim (s : List Char) : List Char :=
  ((s.dropWhile isspace).reverse.dropWhile isspace).reverse

/-- `String::toLowerCase()`: `tolower` on the characters of the buffer up to the first
NUL. -/
def toLowerCase (s : List Char) : List Char :=
  (cstr s).map tolower ++ s.drop (cstr s).length

/-- Digit accumulation of `atol`, in `long` arithmetic without overflow check. -/
def atolDigits : List Char → Int → Int
  | [], acc => acc
  | c :: cs, acc =>
    if isDigitChar c then atolDigits cs (wrapLong (acc * 10 + ((c.toNat : Int) - 48)))
    else acc

/-- The `atol` of the C library: leading whitespace, an optional sign, then digits. -/
def atol (s : List Char) : Int :=
  match s.dropWhile isspace with
  | '-' :: r => wrapLong (-(atolDigits r 0))
  | '+' :: r => atolDigits r 0
  | r => atolDigits r 0

/-- `String::toInt()` stored into an `int`: `atol` followed by the narrowing to `int`. -/
def toInt (s : List Char) : Int := wrapInt (atol s)

/-! ## Channel table and program state -/

/-- Number of entries of `channels`. -/
def SERVO_COUNT : Nat := 6

/-- Step size of the stepper in degrees. -/
def SERVO_STEP_DEGREES : Int := 1

/-- Minimum time between two effective ticks. -/
def SERVO_STEP_INTERVAL_MS : Int := 15

/-- Column `id` of the table `channels`. -/
def channelId : Nat → List Char
  | 0 => "m1".toList
  | 1 => "m2".toList
  | 2 => "m3".toList
  | 3 => "m4".toList
  | 4 => "m5".toList
  | 5 => "m6".toList
  | _ => []

/-- Column `minAngle` of the table `channels`. -/
def minAngle : Nat → Int
  | 0 => 0
  | 1 => 15
  | 2 => 0
  | 3 => 0
  | 4 => 0
  | 5 => 10
  | _ => 0

/-- Column `maxAngle` of the table `channels`. -/
def maxAngle : Nat → Int
  | 0 => 270
  | 1 => 165
  | 2 => 180
  | 3 => 180
  | 4 => 180
  | 5 => 110
  | _ => 0

/-- The array `safePose` of `initializePose`. -/
def safePose : Nat → Int
  | 0 => 90
  | 1 => 45
  | 2 => 180
  | 3 => 180
  | 4 => 90
  | 5 => 10
  | _ => 0

/-- The mutable globals of the sketch. `position i` and `target i` are the integers
reached through `channels[i].position` and `channels[i].target`; `writes` records the
calls `channels[i].servo->write(angle)` in the order they are made. -/
structure State where
  position : Nat → Int
  target : Nat → Int
  serialLineBuffer : List Char
  lastServoStepMillis : Nat
  writes : List (Nat × Int)

/-- Assignment to one cell of an indexed family of integers. -/
def setAt (f : Nat → Int) (i : Nat) (v : Int) : Nat → Int :=
  fun j => if j = i then v else f j

/-- The globals as initialised at program start, before `setup` runs. -/
def bootState : State where
  position := safePose
  target := safePose
  serialLineBuffer := []
  lastServoStepMillis := 0
  writes := []

/-! ## The functions of the sketch -/

/-- Body of the `for` loop of `initializePose` for channel `i`. -/
def initializeChannel (s : State) (i : Nat) : State :=
  { s with
    position := setAt s.position i (safePose i)
    target := setAt s.target i (safePose i)
    writes := s.writes ++ [(i, safePose i)] }

/-- `initializePose`. -/
def initializePose (s : State) : State :=
  (List.range SERVO_COUNT).foldl initializeChannel s

/-- `isNumeric`. -/
def isNumeric (value : List Char) : Bool :=
  if value.length = 0 then false else value.all isDigitChar

/-- `servoIndexFromId`; the result is the returned `int`. -/
def servoIndexFromId (id : List Char) : Int :=
  if id.length < 2 ∨ id.head? ≠ some 'm' then -1
  else
    let numericPart := substringFrom id 1
    if !isNumeric numericPart then -1
    else
      let servoNumber := toInt numericPart
      if servoNumber < 1 ∨ servoNumber > (SERVO_COUNT : Int) then -1
      else servoNumber - 1

/-- `setServoTarget`. -/
def setServoTarget (s : State) (index : Nat) (angle : Int) : State :=
  let clamped := constrain angle (minAngle index) (maxAngle index)
  { s with target := setAt s.target index clamped }

/-- `handleToken`. -/
def handleToken (s : State) (token : List Char) : State :=
  if token.length = 0 then s
  else
    match indexOf token ':' 0 with
    | none => s
    | some colonIndex =>
      let id := toLowerCase (trim (substring token 0 colonIndex))
      let value := trim (substringFrom token (colonIndex + 1))
      if value.length = 0 ∨ !isNumeric value then s
      else
        let index := servoIndexFromId id
        if index < 0 then s
        else
          let angle := toInt value
          setServoTarget s index.toNat angle

/-- The `while` loop of `handleSerialLine`, run for at most `fuel` iterations from
position `start`. -/
def handleSerialLineLoop (line : List Char) : Nat → Nat → State → State
  | 0, _, s => s
  | fuel + 1, start, s =>
    if start < line.length then
      let end_ := match indexOf line ';' start with
        | none => line.length
        | some e => e
      let token := trim (substring line start end_)
      handleSerialLineLoop line fuel (end_ + 1) (handleToken s token)
    else s

/-- `handleSerialLine`. Every iteration moves `start` forward by at least one, so
`line.length` iterations are enough. -/
def handleSerialLine (s : State) (line : List Char) : State :=
  if line.length = 0 then s
  else handleSerialLineLoop line line.length 0 s

/-- Body of the `for` loop of `stepServosTowardTargets` for channel `i`. -/
def stepChannel (s : State) (i : Nat) : State :=
  let diff := wrapInt (s.target i - s.position i)
  if diff = 0 then s
  else
    let step0 := if absInt diff < SERVO_STEP_DEGREES then absInt diff else SERVO_STEP_DEGREES
    let step := if diff < 0 then wrapInt (-step0) else step0
    let p := wrapInt (s.position i + step)
    { s with position := setAt s.position i p, writes := s.writes ++ [(i, p)] }

/-- `stepServosTowardTargets`, `now` being the value returned by `millis()`. The
subtraction is done in `unsigned long`. -/
def stepServosTowardTargets (s : State) (now : Nat) : State :=
  if ((now : Int) - (s.lastServoStepMillis : Int)) % 2 ^ LONG_BITS < SERVO_STEP_INTERVAL_MS then s
  else (List.range SERVO_COUNT).foldl stepChannel { s with lastServoStepMillis := now }

/-- Body of the `while` loop of `loop` for the byte `incoming` read from the serial
port. -/
def feedByte (s : State) (incoming : Char) : State :=
  if incoming = '\r' then s
  else if incoming = '\n' then
    { handleSerialLine s s.serialLineBuffer with serialLineBuffer := [] }
  else
    let buf := s.serialLineBuffer ++ [incoming]
    if buf.length > 64 then { s with serialLineBuffer := [] }
    else { s with serialLineBuffer := buf }

/-- The `while` loop of `loop` over the bytes available on the serial port. -/
def feedBytes (s : State) (bytes : List Char) : State :=
  bytes.foldl feedByte s

/-! ## Vocabulary of the specification -/

/-- The segments of a line: the line split at every `;`, a trailing empty piece after
a final `;` being left out. -/
def segments : List Char → List (List Char)
  | [] => []
  | c :: cs =>
    if c = ';' then [] :: segments cs
    else
      match segments cs with
      | [] => [[c]]
      | seg :: rest => (c :: seg) :: rest

/-- The tokens that the loop of `handleSerialLine` hands to `handleToken`, in order,
for at most `fuel` iterations from position `start`. -/
def handleSerialLineTokens (line : List Char) : Nat → Nat → List (List Char)
  | 0, _ => []
  | fuel + 1, start =>
    if start < line.length then
      let end_ := match indexOf line ';' start with
        | none => line.length
        | some e => e
      trim (substring line start end_) :: handleSerialLineTokens line fuel (end_ + 1)
    else []

/-- The tokens that `handleSerialLine` hands to `handleToken` for a line. -/
def lineTokens (line : List Char) : List (List Char) :=
  if line.length = 0 then [] else handleSerialLineTokens line line.length 0

/-- The channel whose target `handleToken` sets for a token, `none` when it returns
without setting one. -/
def tokenChannel (token : List Char) : Option Nat :=
  match indexOf token ':' 0 with
  | none => none
  | some colonIndex =>
    let index := servoIndexFromId (toLowerCase (trim (substring token 0 colonIndex)))
    if isNumeric (trim (substringFrom token (colonIndex + 1))) = true ∧ 0 ≤ index then
      some index.toNat
    else none

/-- The angle that `handleToken` passes to `setServoTarget` for a token. -/
def tokenAngle (token : List Char) : Int :=
  match indexOf token ':' 0 with
  | none => 0
  | some colonIndex => toInt (trim (substringFrom token (colonIndex + 1)))

/-- The natural number written by a run of decimal digits. -/
def decimalValue (digits : List Char) : Nat :=
  digits.foldl (fun acc c => acc * 10 + (c.toNat - 48)) 0

/-- Every channel target lies in the range of its channel. -/
def TargetsInRange (s : State) : Prop :=
  ∀ i, i < SERVO_COUNT → minAngle i ≤ s.target i ∧ s.target i ≤ maxAngle i

/-- Every channel position lies in the range of its channel. -/
def PositionsInRange (s : State) : Prop :=
  ∀ i, i < SERVO_COUNT → minAngle i ≤ s.position i ∧ s.position i ≤ maxAngle i

/-- Every recorded servo write addresses a channel of the table with an angle in the
range of that channel. -/
def WritesInRange (s : State) : Prop :=
  ∀ w ∈ s.writes, w.1 < SERVO_COUNT ∧ minAngle w.1 ≤ w.2 ∧ w.2 ≤ maxAngle w.1

/-- The three range properties kept by the main loop. -/
def LoopInvariant (s : State) : Prop :=
  TargetsInRange s ∧ PositionsInRange s ∧ WritesInRange s

/-- One step from a position `p` toward a target `t`, of one degree at most. -/
def stepToward (p t : Int) : Int :=
  if t = p then p else if t < p then p - 1 else p + 1

/-- The characters of `x` that follow its last complete block of 65. -/
def lastPartialBlock (x : List Char) : List Char :=
  x.drop (65 * (x.length / 65))

/-- What remains pending after bytes holding no line feed were fed to an empty buffer:
carriage returns are skipped, and the buffer is emptied by every 65th character it
receives. -/
def pendingAfter (bytes : List Char) : List Char :=
  lastPartialBlock (bytes.filter (fun c => c ≠ '\r'))

/-- A way of changing targets: a line handed to `handleSerialLine`, or a direct call
of `setServoTarget` with an index of the table. -/
inductive TargetOp where
  | line (l : List Char)
  | set (index : Fin 6) (angle : Int)

/-- Effect of a `TargetOp`. -/
def applyTargetOp (s : State) : TargetOp → State
  | .line l => handleSerialLine s l
  | .set index angle => setServoTarget s index.val angle

/-- An event of the main loop: a complete line is handled, or the stepper is called
while `millis()` returns `now`. -/
inductive LoopOp where
  | line (l : List Char)
  | tick (now : Nat)

/-- Effect of a `LoopOp`. -/
def applyLoopOp (s : State) : LoopOp → State
  | .line l => handleSerialLine s l
  | .tick now => stepServosTowardTargets s now

/-- The call `stepServosTowardTargets` at time `now` passes the interval gate. -/
def effectiveTick (s : State) (now : Nat) : Bool :=
  !decide (((now : Int) - (s.lastServoStepMillis : Int)) % 2 ^ LONG_BITS < SERVO_STEP_INTERVAL_MS)

/-- Every call of a sequence of stepper calls passes the interval gate. -/
def allEffective : State → List Nat → Bool
  | _, [] => true
  | s, now :: rest => effectiveTick s now && allEffective (stepServosTowardTargets s now) rest

/-- Successive calls of the stepper at the given times. -/
def runTicks (s : State) (ticks : List Nat) : State :=
  ticks.foldl stepServosTowardTargets s

/-- Number of calls, in a sequence of stepper calls, that change the position of
channel `i`. -/
def movingTicks (i : Nat) : State → List Nat → Nat
  | _, [] => 0
  | s, now :: rest =>
    (if (stepServosTowardTargets s now).position i ≠ s.position i then 1 else 0)
      + movingTicks i (stepServosTowardTargets s now) rest

/-- The decimal digit character of a channel number `K` of 1..6. -/
def channelDigit (K : Nat) : Char := Char.ofNat (48 + K)

/-- The canonical segment `mK:D` for a channel number `K` and a value text `D`. -/
def canonicalSegment (K : Nat) (D : List Char) : List Char :=
  'm' :: channelDigit K :: ':' :: D

/-- The angle passed to `setServoTarget` for channel `i` by the last token of a list
that sets its target, if any. -/
def lastUpdate (i : Nat) : List (List Char) → Option Int
  | [] => none
  | token :: rest =>
    match lastUpdate i rest with
    | some a => some a
    | none => if tokenChannel token = some i then some (tokenAngle token) else none

/-- A segment in the lenient form of the grammar: whitespace runs `w1 .. w4` around the
identifier, the `:` and the value text `D`, the identifier being `m` or `M` followed
by the digit of the channel number `K`. -/
def lenientSegment (upper : Bool) (K : Nat) (D w1 w2 w3 w4 : List Char) : List Char :=
  w1 ++ [if upper then 'M' else 'm', channelDigit K] ++ w2 ++ [':'] ++ w3 ++ D ++ w4

theorem wrapInt_eq (x : Int) : wrapInt x = (x + 32768) % 65536 - 32768 := by
  simp [wrapInt, wrapSigned, INT_BITS]

theorem wrapLong_eq (x : Int) : wrapLong x = (x + 2147483648) % 4294967296 - 2147483648 := by
  simp [wrapLong, wrapSigned, LONG_BITS]

theorem wrapInt_of_small (x : Int) (h1 : -32768 ≤ x) (h2 : x < 32768) : wrapInt x = x := by
  rw [wrapInt_eq]; omega

theorem constrain_mem (a lo hi : Int) (h : lo ≤ hi) :
    lo ≤ constrain a lo hi ∧ constrain a lo hi ≤ hi := by
  unfold constrain
  split_ifs <;> omega

theorem minAngle_le_maxAngle (i : Nat) : minAngle i ≤ maxAngle i := by
  rcases i with _ | _ | _ | _ | _ | _ | _ <;> simp [minAngle, maxAngle]

theorem angle_bounds (i : Nat) : 0 ≤ minAngle i ∧ maxAngle i ≤ 270 := by
  rcases i with _ | _ | _ | _ | _ | _ | _ <;> simp [minAngle, maxAngle]

theorem safePose_mem (i : Nat) : minAngle i ≤ safePose i ∧ safePose i ≤ maxAngle i := by
  rcases i with _ | _ | _ | _ | _ | _ | _ <;> simp [minAngle, maxAngle, safePose]

/-! ## Searching and cutting strings -/

theorem indexOfAux_of_not_mem (ch : Char) :
    ∀ (l : List Char) (i : Nat), ch ∉ l → indexOfAux ch l i = none := by
  intro l
  induction l with
  | nil => intro i _; rfl
  | cons c cs ih =>
    intro i h
    have hc : c ≠ ch := fun e => h (by simp [e])
    have hcs : ch ∉ cs := fun e => h (by simp [e])
    simp [indexOfAux, hc, ih (i + 1) hcs]

theorem indexOfAux_first (ch : Char) :
    ∀ (p r : List Char) (i : Nat), ch ∉ p →
      indexOfAux ch (p ++ ch :: r) i = some (i + p.length) := by
  intro p
  induction p with
  | nil => intro r i _; simp [indexOfAux]
  | cons c cs ih =>
    intro r i h
    have hc : c ≠ ch := fun e => h (by simp [e])
    have hcs : ch ∉ cs := fun e => h (by simp [e])
    simp [indexOfAux, hc, ih r (i + 1) hcs]
    omega

theorem exists_first_split (ch : Char) :
    ∀ l : List Char, ch ∈ l → ∃ p r, l = p ++ ch :: r ∧ ch ∉ p := by
  intro l
  induction l with
  | nil => intro h; simp at h
  | cons c cs ih =>
    intro h
    by_cases hc : c = ch
    · exact ⟨[], cs, by simp [hc], by simp⟩
    · have hcs : ch ∈ cs := by
        rcases List.mem_cons.mp h with e | e
        · exact absurd e.symm hc
        · exact e
      obtain ⟨p, r, hl, hp⟩ := ih hcs
      refine ⟨c :: p, r, by simp [hl], ?_⟩
      intro hm
      rcases List.mem_cons.mp hm with e | e
      · exact hc e.symm
      · exact hp e

theorem cstr_cons_of_ne (c : Char) (r : List Char) (h : c ≠ NUL) :
    cstr (c :: r) = c :: cstr r := by
  simp [cstr, List.takeWhile, h]

theorem cstr_append (p r : List Char) (h : NUL ∉ p) : cstr (p ++ r) = p ++ cstr r := by
  induction p with
  | nil => rfl
  | cons c cs ih =>
    have hc : c ≠ NUL := fun e => h (by simp [e])
    have hcs : NUL ∉ cs := fun e => h (List.mem_cons_of_mem _ e)
    rw [List.cons_append, cstr_cons_of_ne _ _ hc, ih hcs]
    rfl

theorem cstr_of_nulfree (l : List Char) (h : NUL ∉ l) : cstr l = l := by
  have := cstr_append l [] h
  simpa [cstr] using this

theorem mem_of_mem_cstr (c : Char) (l : List Char) (h : c ∈ cstr l) : c ∈ l :=
  (List.takeWhile_sublist _).subset h

theorem nul_not_mem_cstr (l : List Char) : NUL ∉ cstr l := by
  intro h
  have := List.mem_takeWhile_imp h
  simp at this

theorem indexOf_of_not_mem (ch : Char) (pre rest : List Char) (h : ch ∉ rest) :
    indexOf (pre ++ rest) ch pre.length = none := by
  unfold indexOf
  split_ifs
  · rfl
  · have hc : ch ∉ cstr rest := fun e => h (mem_of_mem_cstr ch rest e)
    simp [indexOfAux_of_not_mem ch (cstr rest) pre.length hc]

theorem indexOf_first (ch : Char) (pre p r : List Char) (h : ch ∉ p) (hn : NUL ∉ p)
    (hch : ch ≠ NUL) :
    indexOf (pre ++ (p ++ ch :: r)) ch pre.length = some (pre.length + p.length) := by
  unfold indexOf
  split_ifs with hlen
  · simp at hlen
  · have hc : cstr (p ++ ch :: r) = p ++ ch :: cstr r := by
      rw [cstr_append p _ hn, cstr_cons_of_ne ch r hch]
    simp [hc, indexOfAux_first ch p (cstr r) pre.length h]

theorem substring_mid (pre p post : List Char) (hn : NUL ∉ p) :
    substring (pre ++ (p ++ post)) pre.length (pre.length + p.length) = p := by
  unfold substring
  have h1 : ¬ pre.length > pre.length + p.length := by omega
  simp only [h1, if_false]
  have hlen : (pre ++ (p ++ post)).length = pre.length + (p.length + post.length) := by
    simp
  split_ifs with h2 h3
  · have : p.length = 0 := by omega
    exact (List.length_eq_zero.mp this).symm
  · omega
  · rw [← List.append_assoc, List.take_append_of_le_length (by simp)]
    have : (pre ++ p).take (pre.length + p.length) = pre ++ p := by
      apply List.take_of_length_le; simp
    rw [this]
    simp [cstr_of_nulfree p hn]

theorem substring_zero (p post : List Char) (hn : NUL ∉ p) :
    substring (p ++ post) 0 p.length = p := by
  have := substring_mid [] p post hn
  simpa using this

theorem substringFrom_eq (pre rest : List Char) (hn : NUL ∉ rest) :
    substringFrom (pre ++ rest) pre.length = rest := by
  have := substring_mid pre rest [] hn
  simpa [substringFrom] using this

theorem nul_not_mem_substring (s : List Char) (left right : Nat) :
    NUL ∉ substring s left right := by
  unfold substring
  simp only []
  split_ifs
  all_goals first
    | exact nul_not_mem_cstr _
    | simp

theorem nul_not_mem_trim (l : List Char) (h : NUL ∉ l) : NUL ∉ trim l := by
  intro hm
  apply h
  unfold trim at hm
  have h1 := List.mem_reverse.mp hm
  have h2 := (List.dropWhile_sublist _).subset h1
  have h3 := List.mem_reverse.mp h2
  exact (List.dropWhile_sublist _).subset h3

theorem toLowerCase_of_nulfree (l : List Char) (h : NUL ∉ l) :
    toLowerCase l = l.map tolower := by
  unfold toLowerCase
  rw [cstr_of_nulfree l h]
  simp

/-! ## Segments -/

theorem segments_split :
    ∀ (p r : List Char), ';' ∉ p → segments (p ++ ';' :: r) = p :: segments r := by
  intro p
  induction p with
  | nil => intro r _; simp [segments]
  | cons c cs ih =>
    intro r h
    have hc : c ≠ ';' := fun e => h (by simp [e])
    have hcs : ';' ∉ cs := fun e => h (by simp [e])
    simp [segments, hc, ih r hcs]

theorem segments_of_not_mem :
    ∀ (p : List Char), ';' ∉ p → p ≠ [] → segments p = [p] := by
  intro p
  induction p with
  | nil => intro _ h; exact absurd rfl h
  | cons c cs ih =>
    intro h _
    have hc : c ≠ ';' := fun e => h (by simp [e])
    have hcs : ';' ∉ cs := fun e => h (by simp [e])
    by_cases hnil : cs = []
    · subst hnil; simp [segments, hc]
    · simp [segments, hc, ih hcs hnil]

/-! ## The loop of `handleSerialLine` -/

theorem handleSerialLineLoop_tokens (line : List Char) :
    ∀ (fuel start : Nat) (s : State),
      handleSerialLineLoop line fuel start s
        = (handleSerialLineTokens line fuel start).foldl handleToken s := by
  intro fuel
  induction fuel with
  | zero => intro start s; rfl
  | succ n ih =>
    intro start s
    by_cases h : start < line.length
    · simp only [handleSerialLineLoop, handleSerialLineTokens, h, if_true, List.foldl_cons]
      exact ih _ _
    · simp [handleSerialLineLoop, handleSerialLineTokens, h]

theorem handleSerialLine_tokens (s : State) (line : List Char) :
    handleSerialLine s line = (lineTokens line).foldl handleToken s := by
  unfold handleSerialLine lineTokens
  split_ifs
  · rfl
  · exact handleSerialLineLoop_tokens line _ _ s

theorem handleSerialLineTokens_done (line : List Char) (fuel start : Nat)
    (h : line.length ≤ start) : handleSerialLineTokens line fuel start = [] := by
  cases fuel with
  | zero => rfl
  | succ n =>
    have : ¬ start < line.length := by omega
    simp [handleSerialLineTokens, this]

theorem handleSerialLineTokens_eq (line : List Char) :
    ∀ (fuel : Nat) (pre rest : List Char), line = pre ++ rest → NUL ∉ rest →
      rest.length ≤ fuel →
      handleSerialLineTokens line fuel pre.length = (segments rest).map trim := by
  intro fuel
  induction fuel with
  | zero =>
    intro pre rest _ _ hlen
    have : rest = [] := List.length_eq_zero.mp (by omega)
    subst this
    rfl
  | succ n ih =>
    intro pre rest hline hnul hlen
    by_cases hrest : rest = []
    · subst hrest
      rw [handleSerialLineTokens_done line _ _ (by simp [hline])]
      rfl
    · have hstart : pre.length < line.length := by
        have : 0 < rest.length := List.length_pos.mpr hrest
        simp [hline]; omega
      by_cases hmem : ';' ∈ rest
      · obtain ⟨p, r, hpr, hp⟩ := exists_first_split ';' rest hmem
        have hnp : NUL ∉ p := fun e => hnul (by rw [hpr]; simp [e])
        have hnr : NUL ∉ r := fun e => hnul (by rw [hpr]; simp [e])
        have hidx : indexOf line ';' pre.length = some (pre.length + p.length) := by
          rw [hline, hpr]; exact indexOf_first ';' pre p r hp hnp (by decide)
        have hsub : substring line pre.length (pre.length + p.length) = p := by
          rw [hline, hpr]; exact substring_mid pre p (';' :: r) hnp
        have hnext := ih (pre ++ (p ++ [';'])) r
          (by rw [hline, hpr]; simp) hnr (by rw [hpr] at hlen; simp at hlen; omega)
        have hl : (pre ++ (p ++ [';'])).length = pre.length + p.length + 1 := by
          simp; omega
        rw [hl] at hnext
        simp only [handleSerialLineTokens, hstart, if_true, hidx, hsub]
        rw [hnext, hpr, segments_split p r hp]
        rfl
      · have hidx : indexOf line ';' pre.length = none := by
          rw [hline]; exact indexOf_of_not_mem ';' pre rest hmem
        have hsub : substring line pre.length line.length = rest := by
          have := substringFrom_eq pre rest hnul
          rw [hline]; exact this
        simp only [handleSerialLineTokens, hstart, if_true, hidx, hsub]
        rw [handleSerialLineTokens_done line _ _ (by omega),
          segments_of_not_mem rest hmem hrest]
        rfl

theorem lineTokens_of_nulfree (line : List Char) (hn : NUL ∉ line) :
    lineTokens line = (segments line).map trim := by
  unfold lineTokens
  split_ifs with h
  · have : line = [] := List.length_eq_zero.mp h
    subst this
    rfl
  · exact handleSerialLineTokens_eq line line.length [] line rfl hn (le_refl _)

theorem handleSerialLine_eq_foldl (s : State) (line : List Char) (hn : NUL ∉ line) :
    handleSerialLine s line
      = (segments line).foldl (fun st seg => handleToken st (trim seg)) s := by
  rw [handleSerialLine_tokens, lineTokens_of_nulfree line hn, List.foldl_map]

/-! ## Tokens -/

theorem servoIndexFromId_range (id : List Char) :
    servoIndexFromId id = -1 ∨ (0 ≤ servoIndexFromId id ∧ servoIndexFromId id ≤ 5) := by
  unfold servoIndexFromId
  simp only [SERVO_COUNT]
  split_ifs with h1 h2 h3
  · exact Or.inl rfl
  · exact Or.inl rfl
  · exact Or.inl rfl
  · right
    push_neg at h3
    have := h3.1
    have := h3.2
    simp at *
    omega

theorem isNumeric_of_length_zero (value : List Char) (h : value.length = 0) :
    isNumeric value = false := by
  simp [isNumeric, h]

theorem handleToken_eq (s : State) (token : List Char) :
    handleToken s token
      = match tokenChannel token with
        | none => s
        | some i => setServoTarget s i (tokenAngle token) := by
  unfold handleToken tokenChannel tokenAngle
  by_cases hlen : token.length = 0
  · have hnil : token = [] := List.length_eq_zero.mp hlen
    simp [hnil, indexOf]
  · simp only [hlen, if_false]
    cases hidx : indexOf token ':' 0 with
    | none => rfl
    | some k =>
      simp only []
      by_cases hnum : isNumeric (trim (substringFrom token (k + 1))) = true
      · have hl : ¬ (trim (substringFrom token (k + 1))).length = 0 := by
          intro h0
          rw [isNumeric_of_length_zero _ h0] at hnum
          exact Bool.noConfusion hnum
        by_cases hneg : servoIndexFromId (toLowerCase (trim (substring token 0 k))) < 0
        · have : ¬ 0 ≤ servoIndexFromId (toLowerCase (trim (substring token 0 k))) := by
            omega
          simp [hnum, hl, hneg, this]
        · have : 0 ≤ servoIndexFromId (toLowerCase (trim (substring token 0 k))) := by
            omega
          simp [hnum, hl, hneg, this]
      · simp [hnum]

theorem tokenChannel_lt (token : List Char) (i : Nat) (h : tokenChannel token = some i) :
    i < SERVO_COUNT := by
  unfold tokenChannel at h
  simp only [] at h
  cases hidx : indexOf token ':' 0 with
  | none => simp [hidx] at h
  | some k =>
    simp only [hidx] at h
    split_ifs at h with hc
    have hr := servoIndexFromId_range (toLowerCase (trim (substring token 0 k)))
    have hi : i = (servoIndexFromId (toLowerCase (trim (substring token 0 k)))).toNat :=
      (Option.some.inj h).symm
    simp only [SERVO_COUNT]
    omega

theorem foldl_filter_of_skip {α β : Type} (f : β → α → β) (p : α → Bool)
    (hskip : ∀ b a, p a = false → f b a = b) :
    ∀ (l : List α) (b : β), l.foldl f b = (l.filter p).foldl f b := by
  intro l
  induction l with
  | nil => intro b; rfl
  | cons a as ih =>
    intro b
    cases hp : p a with
    | false => simp [List.filter, hp, hskip b a hp, ih]
    | true => simp [List.filter, hp, ih]

/-! ## Targets -/

theorem setServoTarget_inRange (s : State) (index : Nat) (angle : Int)
    (h : TargetsInRange s) : TargetsInRange (setServoTarget s index angle) := by
  intro i hi
  unfold setServoTarget setAt
  simp only []
  split_ifs with hij
  · subst hij
    exact constrain_mem angle (minAngle i) (maxAngle i) (minAngle_le_maxAngle i)
  · exact h i hi

theorem handleToken_inRange (s : State) (token : List Char) (h : TargetsInRange s) :
    TargetsInRange (handleToken s token) := by
  rw [handleToken_eq]
  cases tokenChannel token with
  | none => exact h
  | some i => exact setServoTarget_inRange s i _ h

theorem foldl_handleToken_inRange (tokens : List (List Char)) :
    ∀ s : State, TargetsInRange s → TargetsInRange (tokens.foldl handleToken s) := by
  induction tokens with
  | nil => intro s h; exact h
  | cons token rest ih =>
    intro s h
    exact ih _ (handleToken_inRange s token h)

theorem handleSerialLine_inRange (s : State) (line : List Char) (h : TargetsInRange s) :
    TargetsInRange (handleSerialLine s line) := by
  rw [handleSerialLine_tokens]
  exact foldl_handleToken_inRange _ s h

theorem range_servo_count : List.range SERVO_COUNT = [0, 1, 2, 3, 4, 5] := by
  decide

theorem initializePose_target (s0 : State) (i : Nat) (hi : i < SERVO_COUNT) :
    (initializePose s0).target i = safePose i := by
  unfold initializePose
  rw [range_servo_count]
  simp only [SERVO_COUNT] at hi
  interval_cases i <;> simp [List.foldl, initializeChannel, setAt]

theorem initializePose_position (s0 : State) (i : Nat) (hi : i < SERVO_COUNT) :
    (initializePose s0).position i = safePose i := by
  unfold initializePose
  rw [range_servo_count]
  simp only [SERVO_COUNT] at hi
  interval_cases i <;> simp [List.foldl, initializeChannel, setAt]

theorem initializePose_inRange (s0 : State) : TargetsInRange (initializePose s0) := by
  intro i hi
  rw [initializePose_target s0 i hi]
  exact safePose_mem i

theorem applyTargetOp_inRange (s : State) (op : TargetOp) (h : TargetsInRange s) :
    TargetsInRange (applyTargetOp s op) := by
  cases op with
  | line l => exact handleSerialLine_inRange s l h
  | set index angle => exact setServoTarget_inRange s index.val angle h

theorem foldl_applyTargetOp_inRange (ops : List TargetOp) :
    ∀ s : State, TargetsInRange s → TargetsInRange (ops.foldl applyTargetOp s) := by
  induction ops with
  | nil => intro s h; exact h
  | cons op rest ih =>
    intro s h
    exact ih _ (applyTargetOp_inRange s op h)

/-- C1. Target clamping invariant: from the state produced by `initializePose`, whose
targets are 90, 45, 180, 180, 90, 10, after any finite sequence of `handleSerialLine`
calls on arbitrary lines and of `setServoTarget` calls with an index of the table and
any angle, every channel satisfies `minAngle ≤ target ≤ maxAngle`. -/
theorem target_clamping_invariant (s0 : State) (ops : List TargetOp) (i : Fin 6) :
    (initializePose s0).target i.val = safePose i.val
    ∧ minAngle i.val ≤ (ops.foldl applyTargetOp (initializePose s0)).target i.val
    ∧ (ops.foldl applyTargetOp (initializePose s0)).target i.val ≤ maxAngle i.val := by
  have hi : i.val < SERVO_COUNT := i.isLt
  refine ⟨initializePose_target s0 i.val hi, ?_⟩
  exact foldl_applyTargetOp_inRange ops _ (initializePose_inRange s0) i.val hi

/-! ## Frame of the parser -/

theorem setServoTarget_frame (s : State) (index : Nat) (angle : Int) :
    (setServoTarget s index angle).position = s.position
    ∧ (setServoTarget s index angle).writes = s.writes
    ∧ (setServoTarget s index angle).serialLineBuffer = s.serialLineBuffer
    ∧ (setServoTarget s index angle).lastServoStepMillis = s.lastServoStepMillis :=
  ⟨rfl, rfl, rfl, rfl⟩

theorem handleToken_frame (s : State) (token : List Char) :
    (handleToken s token).position = s.position
    ∧ (handleToken s token).writes = s.writes
    ∧ (handleToken s token).serialLineBuffer = s.serialLineBuffer
    ∧ (handleToken s token).lastServoStepMillis = s.lastServoStepMillis := by
  rw [handleToken_eq]
  cases tokenChannel token with
  | none => exact ⟨rfl, rfl, rfl, rfl⟩
  | some i => exact setServoTarget_frame s i _

theorem foldl_handleToken_frame (tokens : List (List Char)) :
    ∀ s : State,
      (tokens.foldl handleToken s).position = s.position
      ∧ (tokens.foldl handleToken s).writes = s.writes
      ∧ (tokens.foldl handleToken s).serialLineBuffer = s.serialLineBuffer
      ∧ (tokens.foldl handleToken s).lastServoStepMillis = s.lastServoStepMillis := by
  induction tokens with
  | nil => intro s; exact ⟨rfl, rfl, rfl, rfl⟩
  | cons token rest ih =>
    intro s
    obtain ⟨h1, h2, h3, h4⟩ := ih (handleToken s token)
    obtain ⟨g1, g2, g3, g4⟩ := handleToken_frame s token
    exact ⟨h1.trans g1, h2.trans g2, h3.trans g3, h4.trans g4⟩

theorem handleSerialLine_frame (s : State) (line : List Char) :
    (handleSerialLine s line).position = s.position
    ∧ (handleSerialLine s line).writes = s.writes
    ∧ (handleSerialLine s line).serialLineBuffer = s.serialLineBuffer
    ∧ (handleSerialLine s line).lastServoStepMillis = s.lastServoStepMillis := by
  rw [handleSerialLine_tokens]
  exact foldl_handleToken_frame _ s

/-! ## The stepper -/

theorem stepChannel_target (s : State) (i : Nat) : (stepChannel s i).target = s.target := by
  unfold stepChannel
  simp only []
  split_ifs <;> rfl

theorem stepChannel_invariant (s : State) (i : Nat) (hi : i < SERVO_COUNT)
    (h : LoopInvariant s) : LoopInvariant (stepChannel s i) := by
  obtain ⟨ht, hp, hw⟩ := h
  refine ⟨?_, ?_, ?_⟩
  · intro j hj
    rw [stepChannel_target]
    exact ht j hj
  · intro j hj
    have hti := ht i hi
    have hpi := hp i hi
    have hb := angle_bounds i
    unfold stepChannel
    simp only [SERVO_STEP_DEGREES, absInt, wrapInt_eq]
    split_ifs <;> (try simp only [setAt]) <;> (try split_ifs) <;>
      first
        | exact hp j hj
        | (subst_vars; omega)
  · have hti := ht i hi
    have hpi := hp i hi
    have hb := angle_bounds i
    unfold stepChannel
    simp only [SERVO_STEP_DEGREES, absInt, wrapInt_eq]
    split_ifs <;>
      first
        | exact hw
        | (intro w hwm
           rcases List.mem_append.mp hwm with hm | hm
           · exact hw w hm
           · have hw2 := List.mem_singleton.mp hm
             subst hw2
             refine ⟨hi, ?_, ?_⟩ <;> (try dsimp only) <;> omega)

theorem foldl_stepChannel_invariant (l : List Nat) (hl : ∀ i ∈ l, i < SERVO_COUNT) :
    ∀ s : State, LoopInvariant s → LoopInvariant (l.foldl stepChannel s) := by
  induction l with
  | nil => intro s h; exact h
  | cons i rest ih =>
    intro s h
    exact ih (fun j hj => hl j (List.mem_cons_of_mem _ hj)) _
      (stepChannel_invariant s i (hl i (List.mem_cons_self _ _)) h)

theorem stepServosTowardTargets_invariant (s : State) (now : Nat) (h : LoopInvariant s) :
    LoopInvariant (stepServosTowardTargets s now) := by
  unfold stepServosTowardTargets
  split_ifs
  · exact h
  · apply foldl_stepChannel_invariant
    · intro i hi
      exact List.mem_range.mp hi
    · exact h

theorem handleSerialLine_invariant (s : State) (line : List Char) (h : LoopInvariant s) :
    LoopInvariant (handleSerialLine s line) := by
  obtain ⟨ht, hp, hw⟩ := h
  obtain ⟨f1, f2, _, _⟩ := handleSerialLine_frame s line
  refine ⟨handleSerialLine_inRange s line ht, ?_, ?_⟩
  · intro i hi
    rw [f1]
    exact hp i hi
  · intro w hwm
    rw [f2] at hwm
    exact hw w hwm

theorem initializePose_bootState_writes :
    (initializePose bootState).writes
      = [(0, 90), (1, 45), (2, 180), (3, 180), (4, 90), (5, 10)] := by
  unfold initializePose
  rw [range_servo_count]
  simp [List.foldl, initializeChannel, bootState, safePose]

theorem initializePose_invariant : LoopInvariant (initializePose bootState) := by
  refine ⟨initializePose_inRange bootState, ?_, ?_⟩
  · intro i hi
    rw [initializePose_position bootState i hi]
    exact safePose_mem i
  · intro w hwm
    rw [initializePose_bootState_writes] at hwm
    simp only [List.mem_cons, List.mem_singleton, List.not_mem_nil, or_false] at hwm
    rcases hwm with h | h | h | h | h | h <;> subst h <;>
      simp [SERVO_COUNT, minAngle, maxAngle]

theorem foldl_applyLoopOp_invariant (ops : List LoopOp) :
    ∀ s : State, LoopInvariant s → LoopInvariant (ops.foldl applyLoopOp s) := by
  induction ops with
  | nil => intro s h; exact h
  | cons op rest ih =>
    intro s h
    apply ih
    cases op with
    | line l => exact handleSerialLine_invariant s l h
    | tick now => exact stepServosTowardTargets_invariant s now h

/-- C2. Position range invariant: from the state produced by `initializePose` at
program start, after any finite interleaving of `handleSerialLine` calls on arbitrary
lines and of `stepServosTowardTargets` calls at arbitrary times, every channel
satisfies `minAngle ≤ position ≤ maxAngle`, and every angle passed to a servo write
lies in the range of the channel it is written to. -/
theorem position_range_invariant (ops : List LoopOp) :
    (∀ i : Fin 6,
      minAngle i.val ≤ (ops.foldl applyLoopOp (initializePose bootState)).position i.val
      ∧ (ops.foldl applyLoopOp (initializePose bootState)).position i.val ≤ maxAngle i.val)
    ∧ (∀ w ∈ (ops.foldl applyLoopOp (initializePose bootState)).writes,
      w.1 < SERVO_COUNT ∧ minAngle w.1 ≤ w.2 ∧ w.2 ≤ maxAngle w.1) := by
  obtain ⟨_, hp, hw⟩ := foldl_applyLoopOp_invariant ops _ initializePose_invariant
  exact ⟨fun i => hp i.val i.isLt, hw⟩

/-! ## Convergence of the stepper -/

theorem stepChannel_position_self (s : State) (i : Nat)
    (hP : -1000 ≤ s.position i ∧ s.position i ≤ 1000)
    (hT : -1000 ≤ s.target i ∧ s.target i ≤ 1000) :
    (stepChannel s i).position i = stepToward (s.position i) (s.target i) := by
  unfold stepChannel stepToward
  simp only [SERVO_STEP_DEGREES, absInt, wrapInt_eq]
  split_ifs <;> (try simp only [setAt, if_true]) <;> omega

theorem stepChannel_position_other (s : State) (i j : Nat) (h : j ≠ i) :
    (stepChannel s i).position j = s.position j := by
  unfold stepChannel
  simp only []
  split_ifs <;> simp [setAt, h]

theorem foldl_stepChannel_target (l : List Nat) :
    ∀ s : State, (l.foldl stepChannel s).target = s.target := by
  induction l with
  | nil => intro s; rfl
  | cons a rest ih =>
    intro s
    exact (ih (stepChannel s a)).trans (stepChannel_target s a)

theorem foldl_stepChannel_position_of_not_mem (l : List Nat) (i : Nat) (h : i ∉ l) :
    ∀ s : State, (l.foldl stepChannel s).position i = s.position i := by
  induction l with
  | nil => intro s; rfl
  | cons a rest ih =>
    intro s
    have ha : i ≠ a := fun e => h (by simp [e])
    have hr : i ∉ rest := fun e => h (List.mem_cons_of_mem _ e)
    exact (ih hr (stepChannel s a)).trans (stepChannel_position_other s a i ha)

theorem foldl_stepChannel_position (l : List Nat) (hl : l.Nodup) (i : Nat) (hi : i ∈ l) :
    ∀ s : State, -1000 ≤ s.position i ∧ s.position i ≤ 1000 →
      -1000 ≤ s.target i ∧ s.target i ≤ 1000 →
      (l.foldl stepChannel s).position i = stepToward (s.position i) (s.target i) := by
  induction l with
  | nil => simp at hi
  | cons a rest ih =>
    intro s hP hT
    have hnd := List.nodup_cons.mp hl
    by_cases ha : i = a
    · subst ha
      show (rest.foldl stepChannel (stepChannel s i)).position i = _
      rw [foldl_stepChannel_position_of_not_mem rest i hnd.1]
      exact stepChannel_position_self s i hP hT
    · have hr : i ∈ rest := by
        rcases List.mem_cons.mp hi with e | e
        · exact absurd e ha
        · exact e
      show (rest.foldl stepChannel (stepChannel s a)).position i = _
      have h1 := stepChannel_position_other s a i ha
      have h2 := congrFun (stepChannel_target s a) i
      rw [ih hnd.2 hr (stepChannel s a) (by rw [h1]; exact hP) (by rw [h2]; exact hT), h1, h2]

theorem effective_tick_position (s : State) (now : Nat) (i : Nat) (hi : i < SERVO_COUNT)
    (hP : minAngle i ≤ s.position i ∧ s.position i ≤ maxAngle i)
    (hT : minAngle i ≤ s.target i ∧ s.target i ≤ maxAngle i)
    (heff : effectiveTick s now = true) :
    (stepServosTowardTargets s now).position i = stepToward (s.position i) (s.target i)
    ∧ (stepServosTowardTargets s now).target i = s.target i := by
  have hb := angle_bounds i
  unfold effectiveTick at heff
  simp only [Bool.not_eq_true', decide_eq_false_iff_not] at heff
  unfold stepServosTowardTargets
  simp only [heff, if_false]
  constructor
  · rw [foldl_stepChannel_position (List.range SERVO_COUNT) (List.nodup_range _) i
      (List.mem_range.mpr hi) _ (by constructor <;> (dsimp only; omega))
      (by constructor <;> (dsimp only; omega))]
  · rw [foldl_stepChannel_target]

theorem sign_abs_cases (x : Int) :
    (0 < x ∧ Int.sign x = 1 ∧ |x| = x) ∨ (x = 0 ∧ Int.sign x = 0 ∧ |x| = 0)
      ∨ (x < 0 ∧ Int.sign x = -1 ∧ |x| = -x) := by
  rcases lt_trichotomy x 0 with h | h | h
  · exact Or.inr (Or.inr ⟨h, Int.sign_eq_neg_one_of_neg h, abs_of_neg h⟩)
  · subst h
    exact Or.inr (Or.inl ⟨rfl, rfl, abs_zero⟩)
  · exact Or.inl ⟨h, Int.sign_eq_one_of_pos h, abs_of_pos h⟩

theorem stepToward_closed (P T : Int) (k : Nat) :
    stepToward P T + Int.sign (T - stepToward P T) * min (k : Int) |T - stepToward P T|
      = P + Int.sign (T - P) * min ((k : Int) + 1) |T - P| := by
  rcases sign_abs_cases (T - P) with ⟨h, hs, ha⟩ | ⟨h, hs, ha⟩ | ⟨h, hs, ha⟩ <;>
  rcases sign_abs_cases (T - stepToward P T) with ⟨g, gs, ga⟩ | ⟨g, gs, ga⟩ | ⟨g, gs, ga⟩ <;>
  rw [hs, ha, gs, ga] <;>
  unfold stepToward at g ⊢ <;>
  split_ifs at g ⊢ <;> omega

theorem stepToward_mem (P T lo hi : Int) (hP : lo ≤ P ∧ P ≤ hi) (hT : lo ≤ T ∧ T ≤ hi) :
    lo ≤ stepToward P T ∧ stepToward P T ≤ hi := by
  unfold stepToward
  split_ifs <;> omega

theorem stepToward_moves (P T : Int) (k : Nat) :
    (if stepToward P T ≠ P then 1 else 0) + min k (|T - stepToward P T|).toNat
      = min (k + 1) (|T - P|).toNat := by
  rcases sign_abs_cases (T - P) with ⟨h, _, ha⟩ | ⟨h, _, ha⟩ | ⟨h, _, ha⟩ <;>
  rcases sign_abs_cases (T - stepToward P T) with ⟨g, _, ga⟩ | ⟨g, _, ga⟩ | ⟨g, _, ga⟩ <;>
  rw [ha, ga] <;>
  unfold stepToward at g ⊢ <;>
  split_ifs at g ⊢ <;> omega

theorem runTicks_closed (i : Nat) (hi : i < SERVO_COUNT) :
    ∀ (ticks : List Nat) (s : State),
      (minAngle i ≤ s.position i ∧ s.position i ≤ maxAngle i) →
      (minAngle i ≤ s.target i ∧ s.target i ≤ maxAngle i) →
      allEffective s ticks = true →
      (runTicks s ticks).position i
          = s.position i + Int.sign (s.target i - s.position i)
              * min (ticks.length : Int) |s.target i - s.position i|
      ∧ (runTicks s ticks).target i = s.target i
      ∧ movingTicks i s ticks = min ticks.length (|s.target i - s.position i|).toNat := by
  intro ticks
  induction ticks with
  | nil =>
    intro s _ _ _
    refine ⟨?_, rfl, ?_⟩
    · rcases sign_abs_cases (s.target i - s.position i) with
        ⟨_, hs, ha⟩ | ⟨_, hs, ha⟩ | ⟨_, hs, ha⟩ <;>
      rw [hs, ha] <;> simp [runTicks] <;> omega
    · simp [movingTicks]
  | cons now rest ih =>
    intro s hP hT heff
    simp only [allEffective, Bool.and_eq_true] at heff
    obtain ⟨hp1, ht1⟩ := effective_tick_position s now i hi hP hT heff.1
    have hP2 : minAngle i ≤ (stepServosTowardTargets s now).position i
        ∧ (stepServosTowardTargets s now).position i ≤ maxAngle i := by
      rw [hp1]; exact stepToward_mem _ _ _ _ hP hT
    have hT2 : minAngle i ≤ (stepServosTowardTargets s now).target i
        ∧ (stepServosTowardTargets s now).target i ≤ maxAngle i := by
      rw [ht1]; exact hT
    obtain ⟨h1, h2, h3⟩ := ih (stepServosTowardTargets s now) hP2 hT2 heff.2
    refine ⟨?_, ?_, ?_⟩
    · show (runTicks (stepServosTowardTargets s now) rest).position i = _
      rw [h1, hp1, ht1]
      have := stepToward_closed (s.position i) (s.target i) rest.length
      simp only [List.length_cons, Nat.cast_add, Nat.cast_one]
      exact this
    · show (runTicks (stepServosTowardTargets s now) rest).target i = _
      rw [h2, ht1]
    · simp only [movingTicks, List.length_cons]
      rw [h3, hp1, ht1]
      exact stepToward_moves (s.position i) (s.target i) rest.length

theorem allEffective_take :
    ∀ (ticks : List Nat) (s : State) (j : Nat),
      allEffective s ticks = true → allEffective s (ticks.take j) = true := by
  intro ticks
  induction ticks with
  | nil => intro s j h; simpa using h
  | cons now rest ih =>
    intro s j h
    cases j with
    | zero => rfl
    | succ n =>
      simp only [allEffective, Bool.and_eq_true, List.take_succ_cons] at h ⊢
      exact ⟨h.1, ih _ n h.2⟩

theorem gap_closed (P T j : Int) (hj : 0 ≤ j) :
    |T - (P + Int.sign (T - P) * min j |T - P|)| = |T - P| - min j |T - P| := by
  rcases sign_abs_cases (T - P) with ⟨h, hs, ha⟩ | ⟨h, hs, ha⟩ | ⟨h, hs, ha⟩
  · rw [hs, ha, abs_of_nonneg (by omega)]
    omega
  · rw [hs, ha]
    have : T - P = 0 := h
    have e : T - (P + 0 * min j 0) = 0 := by omega
    rw [e]
    simp
    omega
  · rw [hs, ha, abs_of_nonpos (by omega)]
    omega

/-- C3. Convergence without overshoot: for a channel whose position `P` and target
`T` are in range, with no target change, after `j` effective ticks the position is
`P + sign (T - P) * min (j * S) |T - P|` with `S = SERVO_STEP_DEGREES`; the ticks that
move the channel are exactly the first `ceil (|T - P| / S)` ones; from then on the
position is `T`; and `|T - position|` never increases from one tick to the next. -/
theorem convergence_without_overshoot (s : State) (ticks : List Nat) (i : Nat)
    (hi : i < SERVO_COUNT)
    (hP : minAngle i ≤ s.position i ∧ s.position i ≤ maxAngle i)
    (hT : minAngle i ≤ s.target i ∧ s.target i ≤ maxAngle i)
    (heff : allEffective s ticks = true) :
    (∀ j : Nat, j ≤ ticks.length →
      (runTicks s (ticks.take j)).position i
        = s.position i + Int.sign (s.target i - s.position i)
            * min ((j : Int) * SERVO_STEP_DEGREES) |s.target i - s.position i|)
    ∧ movingTicks i s ticks
        = min ticks.length
            ((|s.target i - s.position i| + SERVO_STEP_DEGREES - 1) / SERVO_STEP_DEGREES).toNat
    ∧ (∀ j : Nat,
        (|s.target i - s.position i| + SERVO_STEP_DEGREES - 1) / SERVO_STEP_DEGREES ≤ (j : Int) →
        j ≤ ticks.length → (runTicks s (ticks.take j)).position i = s.target i)
    ∧ (∀ j : Nat, j < ticks.length →
        |s.target i - (runTicks s (ticks.take (j + 1))).position i|
          ≤ |s.target i - (runTicks s (ticks.take j)).position i|) := by
  have hclosed : ∀ j : Nat, j ≤ ticks.length →
      (runTicks s (ticks.take j)).position i
        = s.position i + Int.sign (s.target i - s.position i)
            * min (j : Int) |s.target i - s.position i| := by
    intro j hj
    have h := (runTicks_closed i hi (ticks.take j) s hP hT (allEffective_take ticks s j heff)).1
    rw [List.length_take, Nat.min_eq_left hj] at h
    exact h
  have hceil : (|s.target i - s.position i| + SERVO_STEP_DEGREES - 1) / SERVO_STEP_DEGREES
      = |s.target i - s.position i| := by
    simp [SERVO_STEP_DEGREES]
  refine ⟨?_, ?_, ?_, ?_⟩
  · intro j hj
    rw [hclosed j hj]
    simp [SERVO_STEP_DEGREES]
  · rw [hceil]
    exact (runTicks_closed i hi ticks s hP hT heff).2.2
  · intro j hge hj
    rw [hceil] at hge
    rw [hclosed j hj]
    rcases sign_abs_cases (s.target i - s.position i) with
      ⟨_, hs, ha⟩ | ⟨_, hs, ha⟩ | ⟨_, hs, ha⟩ <;>
    rw [hs, ha] <;> rw [ha] at hge <;> omega
  · intro j hj
    rw [hclosed j (by omega), hclosed (j + 1) (by omega),
      gap_closed _ _ _ (by omega), gap_closed _ _ _ (by omega)]
    push_cast
    generalize |s.target i - s.position i| = a
    omega

/-- Witness of C3: from the initial pose, the line `m1:93` followed by four effective
ticks moves channel m1 from 90 to 93 in exactly three moving ticks. -/
theorem convergence_without_overshoot_witness :
    allEffective (handleSerialLine (initializePose bootState) "m1:93".toList) [15, 30, 45, 60]
      = true
    ∧ (runTicks (handleSerialLine (initializePose bootState) "m1:93".toList)
        [15, 30, 45, 60]).position 0 = 93
    ∧ movingTicks 0 (handleSerialLine (initializePose bootState) "m1:93".toList)
        [15, 30, 45, 60] = 3 := by
  have h := convergence_without_overshoot
    (handleSerialLine (initializePose bootState) "m1:93".toList) [15, 30, 45, 60] 0
    (by decide) (by decide) (by decide) (by decide)
  have ht : (handleSerialLine (initializePose bootState) "m1:93".toList).target 0 = 93 := by
    decide
  have hp : (handleSerialLine (initializePose bootState) "m1:93".toList).position 0 = 90 := by
    decide
  simp only [ht, hp, SERVO_STEP_DEGREES] at h
  refine ⟨by decide, ?_, ?_⟩
  · have h4 := h.2.2.1 4 (by norm_num) (by simp)
    simpa using h4
  · have h3 := h.2.1
    rw [h3]
    norm_num
    rfl

/-! ## Reading numbers -/

theorem isDigitChar_bounds (c : Char) (h : isDigitChar c = true) :
    48 ≤ c.toNat ∧ c.toNat ≤ 57 := by
  unfold isDigitChar at h
  simpa using h

theorem isNumeric_all (d : List Char) (h : isNumeric d = true) :
    d ≠ [] ∧ ∀ c ∈ d, isDigitChar c = true := by
  unfold isNumeric at h
  split_ifs at h with h0
  constructor
  · intro e; exact h0 (by simp [e])
  · exact List.all_eq_true.mp h

theorem wrapLong_step (a d : Int) :
    wrapLong (wrapLong a * 10 + d) = wrapLong (a * 10 + d) := by
  simp only [wrapLong_eq]
  omega

theorem atolDigits_of_digits :
    ∀ (cs : List Char) (a : Nat), (∀ c ∈ cs, isDigitChar c = true) →
      atolDigits cs (wrapLong a)
        = wrapLong ((cs.foldl (fun acc c => acc * 10 + (c.toNat - 48)) a : Nat) : Int) := by
  intro cs
  induction cs with
  | nil => intro a _; rfl
  | cons c rest ih =>
    intro a h
    have hc := h c (List.mem_cons_self _ _)
    have hb := isDigitChar_bounds c hc
    have hrest : ∀ x ∈ rest, isDigitChar x = true := fun x hx => h x (List.mem_cons_of_mem _ hx)
    simp only [atolDigits, hc, if_true, List.foldl_cons]
    rw [wrapLong_step, ← ih (a * 10 + (c.toNat - 48)) hrest]
    congr 2
    push_cast
    omega

theorem atol_of_numeric (d : List Char) (h : isNumeric d = true) :
    atol d = wrapLong (decimalValue d) := by
  obtain ⟨hne, hall⟩ := isNumeric_all d h
  obtain ⟨c, rest, rfl⟩ := List.exists_cons_of_ne_nil hne
  have hc := hall c (List.mem_cons_self _ _)
  have hb := isDigitChar_bounds c hc
  have hsp : isspace c = false := by
    unfold isspace
    rw [Bool.eq_false_iff]
    intro hh
    simp at hh
    omega
  have hdrop : (c :: rest).dropWhile isspace = c :: rest := by
    simp [List.dropWhile, hsp]
  have hzero : atolDigits (c :: rest) 0 = wrapLong (decimalValue (c :: rest)) := by
    have := atolDigits_of_digits (c :: rest) 0 hall
    simpa [wrapLong_eq, decimalValue] using this
  unfold atol
  rw [hdrop]
  split
  · rename_i r heq
    have : c = '-' := (List.cons.inj heq).1
    subst this
    exact absurd hc (by decide)
  · rename_i r heq
    have : c = '+' := (List.cons.inj heq).1
    subst this
    exact absurd hc (by decide)
  · exact hzero

theorem toInt_of_numeric (d : List Char) (h : isNumeric d = true) :
    toInt d = wrapInt (wrapLong (decimalValue d)) := by
  unfold toInt
  rw [atol_of_numeric d h]

theorem toInt_of_small (d : List Char) (h : isNumeric d = true)
    (hs : decimalValue d < 32768) : toInt d = decimalValue d := by
  rw [toInt_of_numeric d h, wrapLong_eq, wrapInt_eq]
  omega

/-! ## Trimming -/

theorem rdropWhile_append_of_pos (p : Char → Bool) (l w : List Char)
    (hw : ∀ c ∈ w, p c = true) : (l ++ w).rdropWhile p = l.rdropWhile p := by
  unfold List.rdropWhile
  rw [List.reverse_append, List.dropWhile_append_of_pos]
  intro c hc
  exact hw c (List.mem_reverse.mp hc)

theorem trim_append_left (w l : List Char) (hw : ∀ c ∈ w, isspace c = true) :
    trim (w ++ l) = trim l := by
  unfold trim
  rw [List.dropWhile_append_of_pos hw]

theorem dropWhile_of_all (w : List Char) (hw : ∀ c ∈ w, isspace c = true) :
    w.dropWhile isspace = [] := by
  induction w with
  | nil => rfl
  | cons c rest ih =>
    rw [List.dropWhile_cons_of_pos (hw c (List.mem_cons_self _ _))]
    exact ih (fun x hx => hw x (List.mem_cons_of_mem _ hx))

theorem trim_append_right (l w : List Char) (hw : ∀ c ∈ w, isspace c = true) :
    trim (l ++ w) = trim l := by
  show ((l ++ w).dropWhile isspace).rdropWhile isspace
    = (l.dropWhile isspace).rdropWhile isspace
  rw [List.dropWhile_append]
  split_ifs with h
  · have hnil : l.dropWhile isspace = [] := by simpa using h
    rw [hnil, dropWhile_of_all w hw]
  · exact rdropWhile_append_of_pos isspace _ w hw

theorem trim_cons_concat (c0 : Char) (mid : List Char) (cl : Char)
    (h0 : isspace c0 = false) (hl : isspace cl = false) :
    trim (c0 :: (mid ++ [cl])) = c0 :: (mid ++ [cl]) := by
  show ((c0 :: (mid ++ [cl])).dropWhile isspace).rdropWhile isspace = _
  rw [List.dropWhile_cons_of_neg (by simp [h0])]
  have : c0 :: (mid ++ [cl]) = (c0 :: mid) ++ [cl] := rfl
  rw [this, List.rdropWhile_concat_neg _ _ _ (by simp [hl])]

theorem trim_singleton (c : Char) (h : isspace c = false) : trim [c] = [c] := by
  unfold trim
  simp [List.dropWhile, h]

theorem isspace_of_digit (c : Char) (h : isDigitChar c = true) : isspace c = false := by
  have hb := isDigitChar_bounds c h
  unfold isspace
  rw [Bool.eq_false_iff]
  intro hh
  simp at hh
  omega

theorem trim_digits (D : List Char) (hD : ∀ c ∈ D, isDigitChar c = true) : trim D = D := by
  rcases List.eq_nil_or_concat D with h | ⟨D1, d, h⟩
  · subst h; rfl
  · rw [List.concat_eq_append] at h
    subst h
    have hd : isspace d = false := isspace_of_digit d (hD d (by simp))
    cases D1 with
    | nil => exact trim_singleton d hd
    | cons c0 mid =>
      exact trim_cons_concat c0 mid d (isspace_of_digit c0 (hD c0 (by simp))) hd

theorem not_mem_of_all_space (x : Char) (hx : isspace x = false) (w : List Char)
    (hw : ∀ c ∈ w, isspace c = true) : x ∉ w := by
  intro h
  rw [hw x h] at hx
  exact Bool.noConfusion hx

theorem not_mem_of_all_digit (x : Char) (hx : isDigitChar x = false) (D : List Char)
    (hD : ∀ c ∈ D, isDigitChar c = true) : x ∉ D := by
  intro h
  rw [hD x h] at hx
  exact Bool.noConfusion hx

theorem channelDigit_facts (K : Nat) (h1 : 1 ≤ K) (h6 : K ≤ 6) :
    isspace (channelDigit K) = false ∧ channelDigit K ≠ ':' ∧ channelDigit K ≠ ';'
    ∧ tolower (channelDigit K) = channelDigit K
    ∧ servoIndexFromId ['m', channelDigit K] = ((K - 1 : Nat) : Int) := by
  interval_cases K <;> decide

theorem handleToken_of_colon (s : State) (idPart valuePart : List Char)
    (hid : ':' ∉ idPart) (hn1 : NUL ∉ idPart) (hn2 : NUL ∉ valuePart) :
    handleToken s (idPart ++ ':' :: valuePart)
      = if isNumeric (trim valuePart) = true
            ∧ 0 ≤ servoIndexFromId (toLowerCase (trim idPart)) then
          setServoTarget s (servoIndexFromId (toLowerCase (trim idPart))).toNat
            (toInt (trim valuePart))
        else s := by
  have hidx : indexOf (idPart ++ ':' :: valuePart) ':' 0 = some idPart.length := by
    have := indexOf_first ':' [] idPart valuePart hid hn1 (by decide)
    simpa using this
  have hsub : substring (idPart ++ ':' :: valuePart) 0 idPart.length = idPart :=
    substring_zero idPart (':' :: valuePart) hn1
  have hval : substringFrom (idPart ++ ':' :: valuePart) (idPart.length + 1) = valuePart := by
    have := substringFrom_eq (idPart ++ [':']) valuePart hn2
    simpa using this
  unfold handleToken
  have hlen : ¬ (idPart ++ ':' :: valuePart).length = 0 := by simp
  simp only [hlen, if_false, hidx, hsub, hval]
  by_cases hnum : isNumeric (trim valuePart) = true
  · have hl : ¬ (trim valuePart).length = 0 := by
      intro h0
      rw [isNumeric_of_length_zero _ h0] at hnum
      exact Bool.noConfusion hnum
    by_cases hneg : servoIndexFromId (toLowerCase (trim idPart)) < 0
    · have : ¬ 0 ≤ servoIndexFromId (toLowerCase (trim idPart)) := by omega
      simp [hnum, hl, hneg, this]
    · have : 0 ≤ servoIndexFromId (toLowerCase (trim idPart)) := by omega
      simp [hnum, hl, hneg, this]
  · simp [hnum]

theorem lastPartialBlock_of_short (x : List Char) (h : x.length ≤ 64) :
    lastPartialBlock x = x := by
  unfold lastPartialBlock
  have : x.length / 65 = 0 := by omega
  simp [this]

theorem lastPartialBlock_append (x y : List Char) (h : x.length = 65) :
    lastPartialBlock (x ++ y) = lastPartialBlock y := by
  unfold lastPartialBlock
  have h1 : (x ++ y).length / 65 = y.length / 65 + 1 := by
    simp only [List.length_append]; omega
  rw [h1]
  have h2 : 65 * (y.length / 65 + 1) = x.length + 65 * (y.length / 65) := by omega
  rw [h2, List.drop_append]

theorem setServoTarget_buffer (s : State) (b : List Char) (index : Nat) (angle : Int) :
    setServoTarget { s with serialLineBuffer := b } index angle
      = { setServoTarget s index angle with serialLineBuffer := b } := rfl

theorem handleToken_buffer (s : State) (b : List Char) (token : List Char) :
    handleToken { s with serialLineBuffer := b } token
      = { handleToken s token with serialLineBuffer := b } := by
  rw [handleToken_eq, handleToken_eq]
  cases tokenChannel token with
  | none => rfl
  | some i => rfl

theorem foldl_handleToken_buffer (b : List Char) (tokens : List (List Char)) :
    ∀ s : State,
      tokens.foldl handleToken { s with serialLineBuffer := b }
        = { tokens.foldl handleToken s with serialLineBuffer := b } := by
  induction tokens with
  | nil => intro s; rfl
  | cons token rest ih =>
    intro s
    show rest.foldl _ (handleToken { s with serialLineBuffer := b } token) = _
    rw [handleToken_buffer, ih]
    rfl

theorem handleSerialLine_buffer (s : State) (b : List Char) (line : List Char) :
    handleSerialLine { s with serialLineBuffer := b } line
      = { handleSerialLine s line with serialLineBuffer := b } := by
  rw [handleSerialLine_tokens, handleSerialLine_tokens]
  exact foldl_handleToken_buffer b _ s

theorem feedBytes_unterminated :
    ∀ (bytes : List Char) (s : State), '\n' ∉ bytes → s.serialLineBuffer.length ≤ 64 →
      feedBytes s bytes
        = { s with serialLineBuffer :=
              lastPartialBlock (s.serialLineBuffer ++ bytes.filter (fun c => c ≠ '\r')) } := by
  intro bytes
  induction bytes with
  | nil =>
    intro s _ hlen
    simp [feedBytes, lastPartialBlock_of_short _ hlen]
  | cons c rest ih =>
    intro s hnl hlen
    have hc : c ≠ '\n' := fun e => hnl (by simp [e])
    have hrest : '\n' ∉ rest := fun e => hnl (List.mem_cons_of_mem _ e)
    show feedBytes (feedByte s c) rest = _
    by_cases hcr : c = '\r'
    · have : feedByte s c = s := by simp [feedByte, hcr]
      rw [this, ih s hrest hlen]
      simp [hcr]
    · by_cases hfull : (s.serialLineBuffer ++ [c]).length > 64
      · have hstep : feedByte s c = { s with serialLineBuffer := [] } := by
          simp only [feedByte, hcr, hc, if_false, hfull, if_true]
        have h65 : (s.serialLineBuffer ++ [c]).length = 65 := by
          simp only [List.length_append, List.length_singleton] at hfull ⊢; omega
        rw [hstep, ih _ hrest (by simp)]
        have hfilter : (c :: rest).filter (fun c => c ≠ '\r')
            = c :: rest.filter (fun c => c ≠ '\r') := by
          simp [List.filter, hcr]
        rw [hfilter]
        have happ : s.serialLineBuffer ++ c :: rest.filter (fun c => c ≠ '\r')
            = (s.serialLineBuffer ++ [c]) ++ rest.filter (fun c => c ≠ '\r') := by simp
        rw [happ, lastPartialBlock_append _ _ h65]
        rfl
      · have hstep : feedByte s c = { s with serialLineBuffer := s.serialLineBuffer ++ [c] } := by
          simp only [feedByte, hcr, hc, if_false, hfull]
        rw [hstep, ih _ hrest (by simp only [] ; omega)]
        have hfilter : (c :: rest).filter (fun c => c ≠ '\r')
            = c :: rest.filter (fun c => c ≠ '\r') := by
          simp [List.filter, hcr]
        rw [hfilter]
        simp

theorem feedBytes_line :
    ∀ (line : List Char) (s : State), '\n' ∉ line → '\r' ∉ line →
      s.serialLineBuffer.length + line.length ≤ 64 →
      feedBytes s line = { s with serialLineBuffer := s.serialLineBuffer ++ line } := by
  intro line s hnl hcr hlen
  rw [feedBytes_unterminated line s hnl (by omega)]
  have hfilter : line.filter (fun c => c ≠ '\r') = line := by
    apply List.filter_eq_self.mpr
    intro c hc
    simp only [ne_eq, decide_not, Bool.not_eq_true', decide_eq_false_iff_not]
    intro e
    exact hcr (e ▸ hc)
  rw [hfilter, lastPartialBlock_of_short _ (by simp; omega)]

theorem feedByte_newline (s : State) (b : List Char) :
    feedByte { s with serialLineBuffer := b } '\n'
      = { handleSerialLine s b with serialLineBuffer := [] } := by
  have h1 : ('\n' : Char) ≠ '\r' := by decide
  simp only [feedByte, h1, if_false, if_true]
  rw [handleSerialLine_buffer]

theorem state_buffer_eta (r : State) (h : r.serialLineBuffer = []) :
    { r with serialLineBuffer := [] } = r := by
  cases r
  simp only [] at h
  subst h
  rfl

theorem pendingAfter_length (bytes : List Char) : (pendingAfter bytes).length ≤ 64 := by
  unfold pendingAfter lastPartialBlock
  simp only [List.length_drop]
  omega

/-- C5, as the claim states it, fails: 66 bytes `x` without line feed followed by the
line `m1:135` and a line feed leave the target of m1 at 90, whereas `handleSerialLine`
on `m1:135` alone sets it to 135. The 66th byte stays in the buffer after the reset and
the line handled is `xm1:135`. -/
theorem overflow_recovery_counterexample :
    (feedBytes (initializePose bootState)
        (List.replicate 66 'x' ++ "m1:135".toList ++ ['\n'])).target 0 = 90
    ∧ (handleSerialLine (initializePose bootState) "m1:135".toList).target 0 = 135
    ∧ pendingAfter (List.replicate 66 'x') = ['x'] := by
  set_option maxRecDepth 100000 in
  decide

/-- C5, amended. Bytes without line feed are fed from an empty buffer and followed by a
line `L` and a line feed, `L` holding no carriage return and fitting the buffer together
with the bytes still pending. The resulting state is the one produced by
`handleSerialLine` on the pending bytes followed by `L`, the pending bytes being those
received since the last reset of the buffer. When the number of bytes other than carriage
returns is a multiple of 65, nothing is pending and the state is the one produced by
`handleSerialLine` on `L` alone. -/
theorem overflow_recovery (s : State) (junk L : List Char)
    (hbuf : s.serialLineBuffer = [])
    (hjunk : '\n' ∉ junk) (hL : '\n' ∉ L ∧ '\r' ∉ L)
    (hlen : (pendingAfter junk).length + L.length ≤ 64) :
    feedBytes s (junk ++ L ++ ['\n']) = handleSerialLine s (pendingAfter junk ++ L)
    ∧ ((junk.filter (fun c => c ≠ '\r')).length % 65 = 0 →
        feedBytes s (junk ++ L ++ ['\n']) = handleSerialLine s L) := by
  have hmain : feedBytes s (junk ++ L ++ ['\n']) = handleSerialLine s (pendingAfter junk ++ L) := by
    have h1 : feedBytes s junk = { s with serialLineBuffer := pendingAfter junk } := by
      rw [feedBytes_unterminated junk s hjunk (by simp [hbuf]), hbuf, List.nil_append]
      rfl
    have h2 : feedBytes { s with serialLineBuffer := pendingAfter junk } L
        = { s with serialLineBuffer := pendingAfter junk ++ L } :=
      feedBytes_line L _ hL.1 hL.2 hlen
    have h3 : feedBytes s (junk ++ L ++ ['\n'])
        = feedByte (feedBytes (feedBytes s junk) L) '\n' := by
      unfold feedBytes
      rw [List.foldl_append, List.foldl_append]
      rfl
    rw [h3, h1, h2, feedByte_newline]
    apply state_buffer_eta
    rw [(handleSerialLine_frame s (pendingAfter junk ++ L)).2.2.1, hbuf]
  refine ⟨hmain, ?_⟩
  intro hmod
  rw [hmain]
  have : pendingAfter junk = [] := by
    unfold pendingAfter lastPartialBlock
    apply List.drop_eq_nil_of_le
    have := Nat.div_add_mod (junk.filter (fun c => c ≠ '\r')).length 65
    omega
  rw [this, List.nil_append]

/-- Witness of C5 amended: 65 bytes `x` followed by `m1:135` and a line feed. -/
theorem overflow_recovery_witness :
    feedBytes (initializePose bootState)
        (List.replicate 65 'x' ++ "m1:135".toList ++ ['\n'])
      = handleSerialLine (initializePose bootState) "m1:135".toList := by
  set_option maxRecDepth 100000 in
  exact (overflow_recovery (initializePose bootState) (List.replicate 65 'x') "m1:135".toList
    rfl (by decide) (by decide) (by decide)).2 (by decide)

/-! ## Resolution of identifiers -/

theorem tolower_eq_nul (c : Char) (h : tolower c = NUL) : c = NUL := by
  unfold tolower at h
  split_ifs at h with hu
  · exfalso
    obtain ⟨n, hn⟩ : ∃ n, c.toNat = n := ⟨_, rfl⟩
    rw [hn] at hu h
    obtain ⟨h1, h2⟩ := hu
    interval_cases n <;> exact absurd h (by decide)
  · exact h

theorem nul_not_mem_toLowerCase (l : List Char) (h : NUL ∉ l) : NUL ∉ toLowerCase l := by
  rw [toLowerCase_of_nulfree l h]
  intro hm
  obtain ⟨c, hc, e⟩ := List.mem_map.mp hm
  exact h (tolower_eq_nul c e ▸ hc)

theorem servoIndexFromId_cons (d : List Char) (hn : NUL ∉ d) :
    servoIndexFromId ('m' :: d)
      = if isNumeric d = true ∧ 1 ≤ toInt d ∧ toInt d ≤ 6 then toInt d - 1 else -1 := by
  have hsub : substringFrom ('m' :: d) 1 = d := by
    have := substringFrom_eq ['m'] d hn
    simpa using this
  unfold servoIndexFromId
  simp only [hsub, SERVO_COUNT]
  by_cases hnum : isNumeric d = true
  · have hne := (isNumeric_all d hnum).1
    have hlen : ¬ (('m' :: d).length < 2 ∨ ('m' :: d).head? ≠ some 'm') := by
      have : 0 < d.length := List.length_pos.mpr hne
      simp
      omega
    simp only [hlen, if_false, hnum]
    by_cases hr : 1 ≤ toInt d ∧ toInt d ≤ 6
    · have : ¬ (toInt d < 1 ∨ toInt d > ((6 : Nat) : Int)) := by
        push_cast; omega
      simp [this, hr]
    · have : toInt d < 1 ∨ toInt d > ((6 : Nat) : Int) := by
        push_cast; omega
      simp [this, hr]
  · simp only [Bool.not_eq_true] at hnum
    simp [hnum]

theorem servoIndexFromId_shape (id : List Char) (h : 0 ≤ servoIndexFromId id) :
    ∃ d, id = 'm' :: d := by
  unfold servoIndexFromId at h
  split_ifs at h with h1
  all_goals first
    | (exfalso; revert h; decide)
    | skip
  push_neg at h1
  obtain ⟨_, hhead⟩ := h1
  cases id with
  | nil => simp at hhead
  | cons c rest =>
    simp only [List.head?_cons, Option.some.injEq] at hhead
    exact ⟨rest, by rw [hhead]⟩

/-- C8, as the claim states it, fails: the identifier `m01` resolves to channel 0
although it differs from the table identifier `m1`. -/
theorem lookup_exact_match_counterexample :
    servoIndexFromId (toLowerCase (trim "m01".toList)) = 0
    ∧ toLowerCase (trim "m01".toList) ≠ channelId 0
    ∧ (handleToken (initializePose bootState) "m01:50".toList).target 0 = 50 := by
  decide

/-- C8, amended. Lookup goes by number, not by comparison with the table: an identifier
that holds no NUL byte and whose digit run, if it is `m` followed by a run of digits,
denotes a number below 32768 resolves to channel `i` if and only if it is the character
`m` followed by a non-empty run of decimal digits denoting `i + 1`, leading zeros
allowed. Every table identifier resolves to its own channel, and an identifier that is
not `m` followed by digits denoting a number of 1..6 resolves to no channel. The
identifiers that `handleToken` looks up, cut by `substring`, trimmed and lowercased,
hold no NUL byte. -/
theorem lookup_by_number (id : List Char) (i : Nat) (hi : i < SERVO_COUNT)
    (hnul : NUL ∉ id)
    (hsmall : ∀ d, id = 'm' :: d → isNumeric d = true → decimalValue d < 32768) :
    (servoIndexFromId id = (i : Int)
      ↔ ∃ d, id = 'm' :: d ∧ isNumeric d = true ∧ decimalValue d = i + 1)
    ∧ servoIndexFromId (channelId i) = (i : Int)
    ∧ ((¬ ∃ d, id = 'm' :: d ∧ isNumeric d = true ∧ 1 ≤ decimalValue d ∧ decimalValue d ≤ 6) →
        servoIndexFromId id = -1)
    ∧ (∀ (token : List Char) (k : Nat), NUL ∉ toLowerCase (trim (substring token 0 k))) := by
  simp only [SERVO_COUNT] at hi
  refine ⟨⟨?_, ?_⟩, ?_, ?_, ?_⟩
  · intro h
    obtain ⟨d, rfl⟩ := servoIndexFromId_shape id (by rw [h]; omega)
    have hnd : NUL ∉ d := fun e => hnul (List.mem_cons_of_mem _ e)
    rw [servoIndexFromId_cons d hnd] at h
    split_ifs at h with hc
    · obtain ⟨hnum, _, _⟩ := hc
      rw [toInt_of_small d hnum (hsmall d rfl hnum)] at h
      exact ⟨d, rfl, hnum, by omega⟩
  · rintro ⟨d, rfl, hnum, hval⟩
    have hnd : NUL ∉ d := fun e => hnul (List.mem_cons_of_mem _ e)
    rw [servoIndexFromId_cons d hnd, toInt_of_small d hnum (hsmall d rfl hnum)]
    have : isNumeric d = true ∧ (1 : Int) ≤ (decimalValue d : Int)
        ∧ (decimalValue d : Int) ≤ 6 := ⟨hnum, by omega, by omega⟩
    rw [if_pos this]
    omega
  · interval_cases i <;> decide
  · intro hno
    rcases servoIndexFromId_range id with h | ⟨h0, _⟩
    · exact h
    · exfalso
      obtain ⟨d, rfl⟩ := servoIndexFromId_shape id h0
      have hnd : NUL ∉ d := fun e => hnul (List.mem_cons_of_mem _ e)
      rw [servoIndexFromId_cons d hnd] at h0
      split_ifs at h0 with hc
      · obtain ⟨hnum, h1, h6⟩ := hc
        rw [toInt_of_small d hnum (hsmall d rfl hnum)] at h1 h6
        exact hno ⟨d, rfl, hnum, by omega, by omega⟩
      · omega
  · intro token k
    exact nul_not_mem_toLowerCase _ (nul_not_mem_trim _ (nul_not_mem_substring token 0 k))

/-- Witness of C8 amended: `m01` is `m` followed by digits denoting 1 and resolves to
channel 0; `motor1` is not `m` followed by digits and resolves to no channel. -/
theorem lookup_by_number_witness :
    servoIndexFromId "m01".toList = ((0 : Nat) : Int)
    ∧ servoIndexFromId "motor1".toList = -1 :=
  ⟨(lookup_by_number "m01".toList 0 (by decide) (by decide)
      (fun d h _ => by
        have hd : d = "01".toList := (List.cons.inj h).2.symm
        subst hd
        decide)).1.mpr ⟨"01".toList, rfl, by decide, by decide⟩,
    (lookup_by_number "motor1".toList 0 (by decide) (by decide)
      (fun d h hnum => by
        have hd : d = "otor1".toList := (List.cons.inj h).2.symm
        subst hd
        exact absurd hnum (by decide))).2.2.1
      (by
        rintro ⟨d, h, hnum, _⟩
        have hd : d = "otor1".toList := (List.cons.inj h).2.symm
        subst hd
        exact absurd hnum (by decide))⟩

/-- C6, the code at failing inputs. The digit run `40000` denotes a number above every
range, yet the segment `m1:40000` sets the target of m1 to its lower bound 0 where the
nearest bound is 270: the value is narrowed to a 16-bit `int` before it is clamped. The
same happens with `4294967296`, which no longer fits a `long`. -/
theorem decimal_value_narrowed_before_clamp :
    isNumeric "40000".toList = true
    ∧ decimalValue "40000".toList = 40000
    ∧ constrain 40000 (minAngle 0) (maxAngle 0) = 270
    ∧ toInt "40000".toList = -25536
    ∧ (handleToken (initializePose bootState) "m1:40000".toList).target 0 = 0
    ∧ (handleToken (initializePose bootState) "m1:4294967296".toList).target 0 = 0 := by
  decide

/-- C7, the code at failing inputs. The digit run of `m65537` denotes 65537, outside
1..6, yet the identifier resolves to channel 0 and the segment `m65537:50` sets the
target of m1: the number is narrowed to a 16-bit `int` before the range check. The same
happens with `m4294967297`. -/
theorem identifier_number_narrowed_before_check :
    decimalValue "65537".toList = 65537
    ∧ servoIndexFromId "m65537".toList = 0
    ∧ (initializePose bootState).target 0 = 90
    ∧ (handleToken (initializePose bootState) "m65537:50".toList).target 0 = 50
    ∧ servoIndexFromId "m4294967297".toList = 0
    ∧ (handleToken (initializePose bootState) "m4294967297:50".toList).target 0 = 50 := by
  decide

/-! ## Lenient form of a segment -/

theorem channelDigit_ne_nul (K : Nat) (h1 : 1 ≤ K) (h6 : K ≤ 6) : channelDigit K ≠ NUL := by
  interval_cases K <;> decide

theorem nul_not_mem_canonicalSegment (K : Nat) (D : List Char) (hK : 1 ≤ K ∧ K ≤ 6)
    (hD : ∀ c ∈ D, isDigitChar c = true) : NUL ∉ canonicalSegment K D := by
  unfold canonicalSegment
  simp only [List.mem_cons, not_or]
  exact ⟨by decide, fun e => channelDigit_ne_nul K hK.1 hK.2 e.symm, by decide,
    not_mem_of_all_digit NUL (by decide) D hD⟩

theorem handleSerialLine_single (s : State) (line : List Char) (hn : NUL ∉ line)
    (h : ';' ∉ line) :
    handleSerialLine s line = handleToken s (trim line) := by
  rw [handleSerialLine_eq_foldl s line hn]
  by_cases hnil : line = []
  · subst hnil; rfl
  · rw [segments_of_not_mem line h hnil]
    rfl

theorem handleToken_of_parts (s : State) (idPart valuePart : List Char) (kd : Char)
    (D : List Char) (hid : ':' ∉ idPart) (hn1 : NUL ∉ idPart) (hn2 : NUL ∉ valuePart)
    (hlow : toLowerCase (trim idPart) = ['m', kd]) (hval : trim valuePart = D) :
    handleToken s (idPart ++ ':' :: valuePart)
      = if isNumeric D = true ∧ 0 ≤ servoIndexFromId ['m', kd] then
          setServoTarget s (servoIndexFromId ['m', kd]).toNat (toInt D)
        else s := by
  rw [handleToken_of_colon s idPart valuePart hid hn1 hn2, hlow, hval]

theorem handleToken_canonical (s : State) (K : Nat) (D : List Char)
    (hK : 1 ≤ K ∧ K ≤ 6) (hD : ∀ c ∈ D, isDigitChar c = true) :
    handleToken s (canonicalSegment K D)
      = if isNumeric D = true ∧ 0 ≤ servoIndexFromId ['m', channelDigit K] then
          setServoTarget s (servoIndexFromId ['m', channelDigit K]).toNat (toInt D)
        else s := by
  obtain ⟨hsp, hcol, _, hlow, _⟩ := channelDigit_facts K hK.1 hK.2
  have hid : ':' ∉ ['m', channelDigit K] := by
    intro h
    simp only [List.mem_cons, List.mem_singleton, List.not_mem_nil, or_false] at h
    rcases h with h | h
    · exact absurd h (by decide)
    · exact hcol h.symm
  have hnid : NUL ∉ ['m', channelDigit K] := by
    intro h
    simp only [List.mem_cons, List.mem_singleton, List.not_mem_nil, or_false] at h
    rcases h with h | h
    · exact absurd h (by decide)
    · exact channelDigit_ne_nul K hK.1 hK.2 h.symm
  have htrim : trim ['m', channelDigit K] = ['m', channelDigit K] :=
    trim_cons_concat 'm' [] (channelDigit K) (by decide) hsp
  have hl : toLowerCase (trim ['m', channelDigit K]) = ['m', channelDigit K] := by
    rw [htrim, toLowerCase_of_nulfree _ hnid]
    show [tolower 'm', tolower (channelDigit K)] = _
    rw [hlow]
    rfl
  exact handleToken_of_parts s ['m', channelDigit K] D (channelDigit K) D hid hnid
    (not_mem_of_all_digit NUL (by decide) D hD) hl (trim_digits D hD)

theorem trim_lenientSegment (upper : Bool) (K : Nat) (D w1 w2 w3 w4 : List Char)
    (hD : ∀ c ∈ D, isDigitChar c = true)
    (h1 : ∀ c ∈ w1, isspace c = true) (h3 : ∀ c ∈ w3, isspace c = true)
    (h4 : ∀ c ∈ w4, isspace c = true) :
    ∃ valuePart, trim valuePart = D ∧ NUL ∉ valuePart
      ∧ trim (lenientSegment upper K D w1 w2 w3 w4)
        = ((if upper then 'M' else 'm') :: channelDigit K :: w2) ++ ':' :: valuePart := by
  have hpc : isspace (if upper then 'M' else 'm') = false := by
    cases upper <;> decide
  have hshape : lenientSegment upper K D w1 w2 w3 w4
      = w1 ++ (((if upper then 'M' else 'm') :: channelDigit K :: (w2 ++ ':' :: (w3 ++ D)))
          ++ w4) := by
    simp [lenientSegment]
  rw [hshape, trim_append_left _ _ h1, trim_append_right _ _ h4]
  rcases List.eq_nil_or_concat D with h | ⟨D1, d, h⟩
  · subst h
    refine ⟨[], rfl, by simp, ?_⟩
    have e : (if upper then 'M' else 'm') :: channelDigit K :: (w2 ++ ':' :: (w3 ++ []))
        = ((if upper then 'M' else 'm') :: ((channelDigit K :: w2) ++ [':'])) ++ w3 := by
      simp
    rw [e, trim_append_right _ _ h3,
      trim_cons_concat _ (channelDigit K :: w2) ':' hpc (by decide)]
    simp
  · rw [List.concat_eq_append] at h
    subst h
    have hd : isspace d = false := isspace_of_digit d (hD d (by simp))
    refine ⟨w3 ++ (D1 ++ [d]), ?_, ?_, ?_⟩
    · rw [trim_append_left _ _ h3]
      exact trim_digits _ hD
    · intro hm
      rcases List.mem_append.mp hm with e | e
      · exact not_mem_of_all_space NUL (by decide) w3 h3 e
      · exact not_mem_of_all_digit NUL (by decide) _ hD e
    · have e : (if upper then 'M' else 'm')
            :: channelDigit K :: (w2 ++ ':' :: (w3 ++ (D1 ++ [d])))
          = (if upper then 'M' else 'm')
            :: ((channelDigit K :: (w2 ++ ':' :: (w3 ++ D1))) ++ [d]) := by
        simp
      rw [e, trim_cons_concat _ _ d hpc hd]
      simp

/-- C14. Lenient segment grammar: for every channel number `K` of 1..6, every digit run
`D`, all whitespace runs `w1 .. w4` and either case of the letter, handling the segment
`w1 id w2 : w3 D w4` gives exactly the state given by handling the canonical segment
`mK:D`, both for `handleToken` on the trimmed segment and for `handleSerialLine` on the
segment as a line. -/
theorem lenient_segment_grammar (s : State) (upper : Bool) (K : Nat)
    (D w1 w2 w3 w4 : List Char) (hK : 1 ≤ K ∧ K ≤ 6)
    (hD : ∀ c ∈ D, isDigitChar c = true)
    (hw : ∀ w ∈ [w1, w2, w3, w4], ∀ c ∈ w, isspace c = true) :
    handleToken s (trim (lenientSegment upper K D w1 w2 w3 w4))
      = handleToken s (canonicalSegment K D)
    ∧ handleSerialLine s (lenientSegment upper K D w1 w2 w3 w4)
      = handleSerialLine s (canonicalSegment K D) := by
  have h1 := hw w1 (by simp)
  have h2 := hw w2 (by simp)
  have h3 := hw w3 (by simp)
  have h4 := hw w4 (by simp)
  obtain ⟨hsp, hcol, hsemi, hlow, _⟩ := channelDigit_facts K hK.1 hK.2
  have hknul := channelDigit_ne_nul K hK.1 hK.2
  have hpc : isspace (if upper then 'M' else 'm') = false := by
    cases upper <;> decide
  have htok : handleToken s (trim (lenientSegment upper K D w1 w2 w3 w4))
      = handleToken s (canonicalSegment K D) := by
    obtain ⟨valuePart, hval, hnv, htrim⟩ :=
      trim_lenientSegment upper K D w1 w2 w3 w4 hD h1 h3 h4
    have hid : ':' ∉ (if upper then 'M' else 'm') :: channelDigit K :: w2 := by
      intro h
      rcases List.mem_cons.mp h with h | h
      · cases upper <;> exact absurd h (by decide)
      · rcases List.mem_cons.mp h with h | h
        · exact hcol h.symm
        · exact not_mem_of_all_space ':' (by decide) w2 h2 h
    have hl : toLowerCase (trim ((if upper then 'M' else 'm') :: channelDigit K :: w2))
        = ['m', channelDigit K] := by
      have e : (if upper then 'M' else 'm') :: channelDigit K :: w2
          = ((if upper then 'M' else 'm') :: ([] ++ [channelDigit K])) ++ w2 := by simp
      rw [e, trim_append_right _ _ h2, trim_cons_concat _ [] _ hpc hsp,
        toLowerCase_of_nulfree _ (by
          intro h
          simp only [List.nil_append, List.mem_cons, List.mem_singleton, List.not_mem_nil,
            or_false] at h
          rcases h with h | h
          · cases upper <;> exact absurd h (by decide)
          · exact hknul h.symm)]
      show [tolower (if upper then 'M' else 'm'), tolower (channelDigit K)] = _
      rw [hlow]
      cases upper <;> rfl
    have hnid : NUL ∉ (if upper then 'M' else 'm') :: channelDigit K :: w2 := by
      intro h
      rcases List.mem_cons.mp h with h | h
      · cases upper <;> exact absurd h (by decide)
      · rcases List.mem_cons.mp h with h | h
        · exact hknul h.symm
        · exact not_mem_of_all_space NUL (by decide) w2 h2 h
    rw [htrim, handleToken_of_parts s _ valuePart (channelDigit K) D hid hnid hnv hl hval,
      handleToken_canonical s K D hK hD]
  refine ⟨htok, ?_⟩
  have hsD : ';' ∉ D := not_mem_of_all_digit ';' (by decide) D hD
  have hs1 : ';' ∉ lenientSegment upper K D w1 w2 w3 w4 := by
    unfold lenientSegment
    simp only [List.mem_append, List.mem_cons, List.mem_singleton, List.not_mem_nil,
      or_false, not_or]
    refine ⟨⟨⟨⟨⟨⟨not_mem_of_all_space ';' (by decide) w1 h1, ?_, ?_⟩,
      not_mem_of_all_space ';' (by decide) w2 h2⟩, by decide⟩,
      not_mem_of_all_space ';' (by decide) w3 h3⟩, hsD⟩,
      not_mem_of_all_space ';' (by decide) w4 h4⟩
    · cases upper <;> decide
    · exact fun e => hsemi e.symm
  have hs2 : ';' ∉ canonicalSegment K D := by
    unfold canonicalSegment
    simp only [List.mem_cons, not_or]
    exact ⟨by decide, fun e => hsemi e.symm, by decide, hsD⟩
  have hnD : NUL ∉ D := not_mem_of_all_digit NUL (by decide) D hD
  have hn1 : NUL ∉ lenientSegment upper K D w1 w2 w3 w4 := by
    unfold lenientSegment
    simp only [List.mem_append, List.mem_cons, List.mem_singleton, List.not_mem_nil,
      or_false, not_or]
    refine ⟨⟨⟨⟨⟨⟨not_mem_of_all_space NUL (by decide) w1 h1, ?_, ?_⟩,
      not_mem_of_all_space NUL (by decide) w2 h2⟩, by decide⟩,
      not_mem_of_all_space NUL (by decide) w3 h3⟩, hnD⟩,
      not_mem_of_all_space NUL (by decide) w4 h4⟩
    · cases upper <;> decide
    · exact fun e => hknul e.symm
  have hn2 : NUL ∉ canonicalSegment K D :=
    nul_not_mem_canonicalSegment K D hK hD
  rw [handleSerialLine_single s _ hn1 hs1, handleSerialLine_single s _ hn2 hs2, htok]
  have hcan : trim (canonicalSegment K D) = canonicalSegment K D := by
    rcases List.eq_nil_or_concat D with h | ⟨D1, d, h⟩
    · subst h
      exact trim_cons_concat 'm' [channelDigit K] ':' (by decide) (by decide)
    · rw [List.concat_eq_append] at h
      subst h
      exact trim_cons_concat 'm' (channelDigit K :: ':' :: D1) d (by decide)
        (isspace_of_digit d (hD d (by simp)))
  rw [hcan]

/-- Witness of C14: the segment ` M2 : 100 ` is handled like `m2:100`. -/
theorem lenient_segment_grammar_witness :
    handleToken (initializePose bootState) (trim " M2 : 100 ".toList)
      = handleToken (initializePose bootState) "m2:100".toList
    ∧ handleSerialLine (initializePose bootState) " M2 : 100 ".toList
      = handleSerialLine (initializePose bootState) "m2:100".toList :=
  lenient_segment_grammar (initializePose bootState) true 2 "100".toList
    " ".toList " ".toList " ".toList " ".toList (by decide) (by decide) (by decide)

/-! ## Throttling and the step rule -/

theorem stepChannel_clock (s : State) (i : Nat) :
    (stepChannel s i).lastServoStepMillis = s.lastServoStepMillis
    ∧ (stepChannel s i).serialLineBuffer = s.serialLineBuffer := by
  unfold stepChannel
  simp only []
  split_ifs <;> exact ⟨rfl, rfl⟩

theorem foldl_stepChannel_clock (l : List Nat) :
    ∀ s : State, (l.foldl stepChannel s).lastServoStepMillis = s.lastServoStepMillis := by
  induction l with
  | nil => intro s; rfl
  | cons a rest ih =>
    intro s
    exact (ih (stepChannel s a)).trans (stepChannel_clock s a).1

theorem stepServosTowardTargets_gated (s : State) (now : Nat)
    (h : ((now : Int) - (s.lastServoStepMillis : Int)) % 2 ^ 32 < 15) :
    stepServosTowardTargets s now = s := by
  unfold stepServosTowardTargets
  simp only [LONG_BITS, SERVO_STEP_INTERVAL_MS]
  rw [if_pos h]

theorem stepServosTowardTargets_clock (s : State) (now : Nat)
    (h : ¬ ((now : Int) - (s.lastServoStepMillis : Int)) % 2 ^ 32 < 15) :
    (stepServosTowardTargets s now).lastServoStepMillis = now := by
  unfold stepServosTowardTargets
  simp only [LONG_BITS, SERVO_STEP_INTERVAL_MS]
  rw [if_neg h, foldl_stepChannel_clock]

/-- C11. Throttling: a call of `stepServosTowardTargets` at a time `now` with
`(now - lastServoStepMillis) mod 2^32 < 15` returns the state unchanged, so it issues no
servo write and keeps every position, every target and `lastServoStepMillis`. Of two
successive calls at times `t1 ≤ t2` with `t2 - t1 < 15`, at most one issues servo
writes. -/
theorem throttling (s : State) :
    (∀ now : Nat, ((now : Int) - (s.lastServoStepMillis : Int)) % 2 ^ 32 < 15 →
      stepServosTowardTargets s now = s)
    ∧ (∀ t1 t2 : Nat, t1 ≤ t2 → t2 - t1 < 15 →
        (stepServosTowardTargets s t1).writes = s.writes
        ∨ (stepServosTowardTargets (stepServosTowardTargets s t1) t2).writes
            = (stepServosTowardTargets s t1).writes) := by
  refine ⟨fun now h => stepServosTowardTargets_gated s now h, ?_⟩
  intro t1 t2 h12 hlt
  by_cases hg : ((t1 : Int) - (s.lastServoStepMillis : Int)) % 2 ^ 32 < 15
  · left
    rw [stepServosTowardTargets_gated s t1 hg]
  · right
    have hclock := stepServosTowardTargets_clock s t1 hg
    rw [stepServosTowardTargets_gated (stepServosTowardTargets s t1) t2]
    rw [hclock]
    omega

theorem stepChannel_still (s : State) (i : Nat) (h : s.position i = s.target i) :
    stepChannel s i = s := by
  unfold stepChannel
  have : wrapInt (s.target i - s.position i) = 0 := by
    rw [h, wrapInt_eq]; omega
  simp [this]

theorem stepChannel_writes_index (s : State) (a : Nat) :
    ∃ new, (stepChannel s a).writes = s.writes ++ new ∧ ∀ w ∈ new, w.1 = a := by
  by_cases h0 : wrapInt (s.target a - s.position a) = 0
  · refine ⟨[], ?_, ?_⟩
    · simp [stepChannel, h0]
    · intro w hw
      simp at hw
  · refine ⟨[(a, (stepChannel s a).position a)], ?_, ?_⟩
    · simp [stepChannel, h0, setAt]
    · intro w hw
      rw [List.mem_singleton.mp hw]

theorem foldl_stepChannel_still (K : Nat) (l : List Nat) :
    ∀ s : State, s.position K = s.target K →
      (l.foldl stepChannel s).position K = s.position K
      ∧ ∃ new, (l.foldl stepChannel s).writes = s.writes ++ new ∧ ∀ w ∈ new, w.1 ≠ K := by
  induction l with
  | nil => intro s _; exact ⟨rfl, [], by simp, by simp⟩
  | cons a rest ih =>
    intro s h
    show (rest.foldl stepChannel (stepChannel s a)).position K = _ ∧
      ∃ new, (rest.foldl stepChannel (stepChannel s a)).writes = _ ∧ _
    by_cases ha : K = a
    · subst ha
      rw [stepChannel_still s K h]
      exact ih s h
    · have hp := stepChannel_position_other s a K ha
      have ht := congrFun (stepChannel_target s a) K
      obtain ⟨h1, new, h2, h3⟩ := ih (stepChannel s a) (by rw [hp, ht]; exact h)
      obtain ⟨new0, h4, h5⟩ := stepChannel_writes_index s a
      refine ⟨h1.trans hp, new0 ++ new, ?_, ?_⟩
      · rw [h2, h4, List.append_assoc]
      · intro w hw
        rcases List.mem_append.mp hw with hm | hm
        · rw [h5 w hm]; exact fun e => ha e.symm
        · exact h3 w hm

theorem stepServosTowardTargets_still (s : State) (K now : Nat)
    (h : s.position K = s.target K) :
    (stepServosTowardTargets s now).position K = s.position K
    ∧ ∃ new, (stepServosTowardTargets s now).writes = s.writes ++ new
        ∧ ∀ w ∈ new, w.1 ≠ K := by
  unfold stepServosTowardTargets
  split_ifs
  · exact ⟨rfl, [], by simp, by simp⟩
  · exact foldl_stepChannel_still K _ { s with lastServoStepMillis := now } h

theorem handleSerialLine_canonical (s : State) (K : Nat) (D : List Char)
    (hK : 1 ≤ K ∧ K ≤ 6) (hD : ∀ c ∈ D, isDigitChar c = true) :
    handleSerialLine s (canonicalSegment K D)
      = if isNumeric D = true then setServoTarget s (K - 1) (toInt D) else s := by
  obtain ⟨_, _, hsemi, _, hidx⟩ := channelDigit_facts K hK.1 hK.2
  have hs2 : ';' ∉ canonicalSegment K D := by
    unfold canonicalSegment
    simp only [List.mem_cons, not_or]
    exact ⟨by decide, fun e => hsemi e.symm, by decide,
      not_mem_of_all_digit ';' (by decide) D hD⟩
  have hcan : trim (canonicalSegment K D) = canonicalSegment K D := by
    rcases List.eq_nil_or_concat D with h | ⟨D1, d, h⟩
    · subst h
      exact trim_cons_concat 'm' [channelDigit K] ':' (by decide) (by decide)
    · rw [List.concat_eq_append] at h
      subst h
      exact trim_cons_concat 'm' (channelDigit K :: ':' :: D1) d (by decide)
        (isspace_of_digit d (hD d (by simp)))
  rw [handleSerialLine_single s _ (nul_not_mem_canonicalSegment K D hK hD) hs2, hcan, handleToken_canonical s K D hK hD, hidx]
  by_cases hnum : isNumeric D = true
  · simp [hnum]
  · simp [hnum]

/-- Sending a target again, in terms of the angle that reaches `setServoTarget`: when the
position of channel `K` equals its target and the angle read by `toInt` from `D`, once
clamped, is that target, the line `mK:D` followed by a tick leaves the position of the
channel unchanged and issues no servo write for it. -/
theorem resend_target_of_read_angle (s : State) (K : Nat) (D : List Char) (now : Nat)
    (hK : 1 ≤ K ∧ K ≤ 6) (hD : isNumeric D = true)
    (hpos : s.position (K - 1) = s.target (K - 1))
    (hsame : constrain (toInt D) (minAngle (K - 1)) (maxAngle (K - 1)) = s.target (K - 1)) :
    (stepServosTowardTargets (handleSerialLine s (canonicalSegment K D)) now).position (K - 1)
      = s.position (K - 1)
    ∧ (∃ new,
        (stepServosTowardTargets (handleSerialLine s (canonicalSegment K D)) now).writes
          = s.writes ++ new
        ∧ ∀ w ∈ new, w.1 ≠ K - 1) := by
  have hline : handleSerialLine s (canonicalSegment K D)
      = setServoTarget s (K - 1) (toInt D) := by
    rw [handleSerialLine_canonical s K D hK (isNumeric_all D hD).2, if_pos hD]
  have hstill : (setServoTarget s (K - 1) (toInt D)).position (K - 1)
      = (setServoTarget s (K - 1) (toInt D)).target (K - 1) := by
    simp only [setServoTarget, setAt, if_true]
    rw [hsame]
    exact hpos
  obtain ⟨h1, new, h2, h3⟩ :=
    stepServosTowardTargets_still (setServoTarget s (K - 1) (toInt D)) (K - 1) now hstill
  rw [hline]
  exact ⟨h1, ⟨new, h2, h3⟩⟩

/-- C12, the code at a failing input. In the initial pose m3 is at its target 180. The
line `m3:40000` sends a number whose clamp to the range of m3 is 180, the current target,
so this is the same target again; yet `handleSerialLine` sets the target of m3 to 0, and
the next effective tick moves m3 to 179 and writes that angle to its servo. The line
`m6:10`, whose number fits an `int`, causes no write. -/
theorem redundant_actuation_after_narrowing :
    (initializePose bootState).position 2 = 180
    ∧ (initializePose bootState).target 2 = 180
    ∧ constrain (decimalValue "40000".toList) (minAngle 2) (maxAngle 2) = 180
    ∧ (handleSerialLine (initializePose bootState) "m3:40000".toList).target 2 = 0
    ∧ effectiveTick (handleSerialLine (initializePose bootState) "m3:40000".toList) 15 = true
    ∧ (stepServosTowardTargets
        (handleSerialLine (initializePose bootState) "m3:40000".toList) 15).position 2 = 179
    ∧ (stepServosTowardTargets
        (handleSerialLine (initializePose bootState) "m3:40000".toList) 15).writes
      = (initializePose bootState).writes ++ [(2, 179)]
    ∧ (stepServosTowardTargets (handleSerialLine (initializePose bootState) "m6:10".toList)
        15).writes = (initializePose bootState).writes := by
  decide

theorem stepToward_formula (P T : Int) (h : T - P ≠ 0) :
    stepToward P T = P + Int.sign (T - P) * min SERVO_STEP_DEGREES |T - P| := by
  unfold stepToward SERVO_STEP_DEGREES
  rcases sign_abs_cases (T - P) with ⟨h0, hs, ha⟩ | ⟨h0, hs, ha⟩ | ⟨h0, hs, ha⟩
  · rw [hs, ha]; split_ifs <;> omega
  · exact absurd h0 h
  · rw [hs, ha]; split_ifs <;> omega

theorem stepChannel_writes_self (s : State) (i : Nat)
    (hP : -1000 ≤ s.position i ∧ s.position i ≤ 1000)
    (hT : -1000 ≤ s.target i ∧ s.target i ≤ 1000) :
    (stepChannel s i).writes
      = s.writes ++ (if s.target i - s.position i = 0 then []
          else [(i, stepToward (s.position i) (s.target i))]) := by
  have hpos := stepChannel_position_self s i hP hT
  by_cases h0 : s.target i - s.position i = 0
  · have : s.position i = s.target i := by omega
    rw [stepChannel_still s i this]
    simp [h0]
  · have hw : wrapInt (s.target i - s.position i) ≠ 0 := by
      rw [wrapInt_eq]; omega
    rw [if_neg h0, ← hpos]
    simp [stepChannel, hw, setAt]

theorem foldl_stepChannel_writes (l : List Nat) (hl : l.Nodup) :
    ∀ s : State,
      (∀ i ∈ l, (-1000 ≤ s.position i ∧ s.position i ≤ 1000)
        ∧ (-1000 ≤ s.target i ∧ s.target i ≤ 1000)) →
      (l.foldl stepChannel s).writes
        = s.writes ++ (l.map (fun i =>
            if s.target i - s.position i = 0 then []
            else [(i, stepToward (s.position i) (s.target i))])).flatten := by
  induction l with
  | nil => intro s _; simp
  | cons a rest ih =>
    intro s h
    have hnd := List.nodup_cons.mp hl
    obtain ⟨hPa, hTa⟩ := h a (List.mem_cons_self _ _)
    have hother : ∀ i ∈ rest, (stepChannel s a).position i = s.position i
        ∧ (stepChannel s a).target i = s.target i := by
      intro i hi
      have hne : i ≠ a := fun e => hnd.1 (e ▸ hi)
      exact ⟨stepChannel_position_other s a i hne, congrFun (stepChannel_target s a) i⟩
    have hrest := ih hnd.2 (stepChannel s a) (by
      intro i hi
      obtain ⟨e1, e2⟩ := hother i hi
      rw [e1, e2]
      exact h i (List.mem_cons_of_mem _ hi))
    show (rest.foldl stepChannel (stepChannel s a)).writes = _
    rw [hrest, stepChannel_writes_self s a hPa hTa, List.map_cons, List.flatten_cons,
      List.append_assoc]
    congr 2
    congr 1
    apply List.map_congr_left
    intro i hi
    obtain ⟨e1, e2⟩ := hother i hi
    rw [e1, e2]

/-- C13. Per-tick step rule: on an effective tick from a state whose targets and
positions are in range, a channel with `diff = target - position = 0` keeps its position
and gets no write; a channel with `diff ≠ 0` moves to
`position + sign diff * min SERVO_STEP_DEGREES |diff|` and gets exactly one write, which
carries the new position; the writes are appended in registry order m1..m6. -/
theorem per_tick_step_rule (s : State) (now : Nat) (hT : TargetsInRange s)
    (hP : PositionsInRange s) (heff : effectiveTick s now = true) :
    (∀ i, i < SERVO_COUNT →
      (s.target i - s.position i = 0 →
        (stepServosTowardTargets s now).position i = s.position i)
      ∧ (s.target i - s.position i ≠ 0 →
        (stepServosTowardTargets s now).position i
          = s.position i + Int.sign (s.target i - s.position i)
              * min SERVO_STEP_DEGREES |s.target i - s.position i|))
    ∧ (stepServosTowardTargets s now).writes
        = s.writes ++ ((List.range SERVO_COUNT).map (fun i =>
            if s.target i - s.position i = 0 then []
            else [(i, s.position i + Int.sign (s.target i - s.position i)
                    * min SERVO_STEP_DEGREES |s.target i - s.position i|)])).flatten := by
  constructor
  · intro i hi
    have h := (effective_tick_position s now i hi (hP i hi) (hT i hi) heff).1
    constructor
    · intro h0
      rw [h]
      unfold stepToward
      have : s.target i = s.position i := by omega
      simp [this]
    · intro h0
      rw [h, stepToward_formula _ _ h0]
  · have hgate := heff
    unfold effectiveTick at hgate
    simp only [Bool.not_eq_true', decide_eq_false_iff_not] at hgate
    unfold stepServosTowardTargets
    simp only [hgate, if_false]
    rw [foldl_stepChannel_writes (List.range SERVO_COUNT) (List.nodup_range _)]
    · show s.writes ++ _ = _
      congr 2
      apply List.map_congr_left
      intro i _
      show (if s.target i - s.position i = 0 then []
        else [(i, stepToward (s.position i) (s.target i))]) = _
      split_ifs with h0
      · rfl
      · rw [stepToward_formula _ _ h0]
    · intro i hi
      have hi6 : i < SERVO_COUNT := List.mem_range.mp hi
      have hb := angle_bounds i
      have h1 := hP i hi6
      have h2 := hT i hi6
      show (-1000 ≤ s.position i ∧ s.position i ≤ 1000)
        ∧ (-1000 ≤ s.target i ∧ s.target i ≤ 1000)
      omega

/-- Witness of C13: after the line `m1:92;m2:0` from the initial pose, the tick at time
15 moves m1 from 90 to 91 and m2 from 45 to 44 and writes these two angles, in this
order. -/
theorem per_tick_step_rule_witness :
    effectiveTick (handleSerialLine (initializePose bootState) "m1:92;m2:0".toList) 15 = true
    ∧ (stepServosTowardTargets
        (handleSerialLine (initializePose bootState) "m1:92;m2:0".toList) 15).writes
      = (handleSerialLine (initializePose bootState) "m1:92;m2:0".toList).writes
        ++ [(0, 91), (1, 44)] := by
  have h := (per_tick_step_rule
    (handleSerialLine (initializePose bootState) "m1:92;m2:0".toList) 15
    (handleSerialLine_inRange _ _ (initializePose_inRange bootState))
    (handleSerialLine_invariant _ _ initializePose_invariant).2.1 (by decide)).2
  refine ⟨by decide, ?_⟩
  rw [h]
  decide

/-! ## Bytes of the serial stream -/

theorem feedByte_carriage_return (s : State) : feedByte s '\r' = s := by
  simp [feedByte]

theorem feedBytes_filter :
    ∀ (bytes : List Char) (s : State),
      feedBytes s bytes = feedBytes s (bytes.filter (fun c => c ≠ '\r')) := by
  intro bytes
  induction bytes with
  | nil => intro s; rfl
  | cons c rest ih =>
    intro s
    by_cases hc : c = '\r'
    · subst hc
      show feedBytes (feedByte s '\r') rest = _
      rw [feedByte_carriage_return, ih s]
      rfl
    · have hf : (c :: rest).filter (fun c => c ≠ '\r')
          = c :: rest.filter (fun c => c ≠ '\r') := by
        simp [List.filter, hc]
      rw [hf]
      show feedBytes (feedByte s c) rest = feedBytes (feedByte s c) _
      exact ih (feedByte s c)

/-- C16. Carriage returns are ignored: for every byte sequence and every starting state,
feeding the sequence to the line assembler gives the same state, pending buffer and
targets included, as feeding it with every `\r` removed; so `m1:135\r\n` has the effect
of `m1:135\n`. -/
theorem carriage_returns_ignored (s : State) (bytes : List Char) :
    feedBytes s bytes = feedBytes s (bytes.filter (fun c => c ≠ '\r'))
    ∧ feedBytes s "m1:135\r\n".toList = feedBytes s "m1:135\n".toList
    ∧ (feedBytes (initializePose bootState) "m1:135\r\n".toList).target 0 = 135 := by
  refine ⟨feedBytes_filter bytes s, ?_, by decide⟩
  rw [feedBytes_filter "m1:135\r\n".toList s]
  rfl

theorem feedByte_buffer_length (s : State) (c : Char) (h : s.serialLineBuffer.length ≤ 64) :
    (feedByte s c).serialLineBuffer.length ≤ 64 := by
  by_cases h1 : c = '\r'
  · simp [feedByte, h1, h]
  · by_cases h2 : c = '\n'
    · simp [feedByte, h2]
    · by_cases h3 : (s.serialLineBuffer ++ [c]).length > 64
      · simp only [feedByte, h1, h2, if_false, h3, if_true]
        simp
      · simp only [feedByte, h1, h2, if_false, h3]
        omega

theorem feedBytes_buffer_length :
    ∀ (bytes : List Char) (s : State), s.serialLineBuffer.length ≤ 64 →
      (feedBytes s bytes).serialLineBuffer.length ≤ 64 := by
  intro bytes
  induction bytes with
  | nil => intro s h; exact h
  | cons c rest ih =>
    intro s h
    exact ih (feedByte s c) (feedByte_buffer_length s c h)

theorem feedBytes_concat (s : State) (bytes : List Char) (c : Char) :
    feedBytes s (bytes ++ [c]) = feedByte (feedBytes s bytes) c := by
  unfold feedBytes
  rw [List.foldl_append]
  rfl

theorem feedByte_line_feed (s : State) :
    feedByte s '\n'
      = { handleSerialLine s s.serialLineBuffer with serialLineBuffer := [] } := by
  have h1 : ('\n' : Char) ≠ '\r' := by decide
  simp only [feedByte, h1, if_false, if_true]

theorem feedByte_other (s : State) (c : Char) (hc : c ≠ '\n') :
    feedByte s c = { s with serialLineBuffer := (feedByte s c).serialLineBuffer } := by
  by_cases h1 : c = '\r'
  · simp [feedByte, h1]
  · by_cases h3 : (s.serialLineBuffer ++ [c]).length > 64
    · simp only [feedByte, h1, hc, if_false, h3, if_true]
    · simp only [feedByte, h1, hc, if_false, h3]

/-- C17. Bounded pending line buffer: starting from an empty buffer, after every byte
sequence the buffer holds at most 64 characters; it is empty right after a `\n` and
right after a byte that finds it with 64 characters; a byte other than `\n` changes
nothing but the buffer, so it hands no line to `handleSerialLine`; and a `\n` hands over
the pending buffer, of at most 64 characters. -/
theorem bounded_line_buffer (s0 : State) (bytes : List Char)
    (h0 : s0.serialLineBuffer = []) :
    (feedBytes s0 bytes).serialLineBuffer.length ≤ 64
    ∧ (feedBytes s0 (bytes ++ ['\n'])).serialLineBuffer = []
    ∧ (∀ c : Char, c ≠ '\r' → c ≠ '\n' →
        (feedBytes s0 bytes).serialLineBuffer.length = 64 →
        (feedBytes s0 (bytes ++ [c])).serialLineBuffer = [])
    ∧ (∀ c : Char, c ≠ '\n' →
        feedBytes s0 (bytes ++ [c])
          = { feedBytes s0 bytes with
              serialLineBuffer := (feedBytes s0 (bytes ++ [c])).serialLineBuffer })
    ∧ feedBytes s0 (bytes ++ ['\n'])
        = { handleSerialLine (feedBytes s0 bytes) (feedBytes s0 bytes).serialLineBuffer with
            serialLineBuffer := [] } := by
  refine ⟨feedBytes_buffer_length bytes s0 (by simp [h0]), ?_, ?_, ?_, ?_⟩
  · rw [feedBytes_concat, feedByte_line_feed]
  · intro c h1 h2 hlen
    rw [feedBytes_concat]
    unfold feedByte
    simp only [h1, h2, if_false]
    have : (feedBytes s0 bytes).serialLineBuffer.length + 1 > 64 := by omega
    simp [this]
  · intro c hc
    rw [feedBytes_concat]
    exact feedByte_other _ c hc
  · rw [feedBytes_concat, feedByte_line_feed]

/-- Witness of C17: 64 bytes `x` fill the buffer, and a 65th empties it. -/
theorem bounded_line_buffer_witness :
    (feedBytes (initializePose bootState) (List.replicate 64 'x')).serialLineBuffer.length
      = 64
    ∧ (feedBytes (initializePose bootState)
        (List.replicate 64 'x' ++ ['x'])).serialLineBuffer = [] := by
  have hlen : (feedBytes (initializePose bootState)
      (List.replicate 64 'x')).serialLineBuffer.length = 64 := by
    set_option maxRecDepth 100000 in
    decide
  exact ⟨hlen, (bounded_line_buffer (initializePose bootState) (List.replicate 64 'x')
    rfl).2.2.1 'x' (by decide) (by decide) hlen⟩

/-! ## Repeated and competing tokens -/

theorem setServoTarget_target_other (s : State) (index i : Nat) (angle : Int)
    (h : i ≠ index) : (setServoTarget s index angle).target i = s.target i := by
  simp [setServoTarget, setAt, h]

theorem handleToken_target (s : State) (token : List Char) (i : Nat) :
    (handleToken s token).target i
      = if tokenChannel token = some i then
          constrain (tokenAngle token) (minAngle i) (maxAngle i)
        else s.target i := by
  rw [handleToken_eq]
  cases hc : tokenChannel token with
  | none => simp
  | some k =>
    by_cases hk : k = i
    · subst hk
      simp [setServoTarget, setAt]
    · have : i ≠ k := fun e => hk e.symm
      simp [setServoTarget, setAt, hk, this]

theorem foldl_handleToken_target (i : Nat) (tokens : List (List Char)) :
    ∀ s : State,
      (tokens.foldl handleToken s).target i
        = match lastUpdate i tokens with
          | some a => constrain a (minAngle i) (maxAngle i)
          | none => s.target i := by
  induction tokens with
  | nil => intro s; rfl
  | cons token rest ih =>
    intro s
    show (rest.foldl handleToken (handleToken s token)).target i = _
    rw [ih (handleToken s token)]
    have hcons : lastUpdate i (token :: rest)
        = (match lastUpdate i rest with
          | some a => some a
          | none => if tokenChannel token = some i then some (tokenAngle token) else none) :=
      rfl
    rw [hcons]
    cases lastUpdate i rest with
    | some a => rfl
    | none =>
      simp only []
      rw [handleToken_target]
      split_ifs <;> rfl

theorem state_ext (a b : State) (h1 : a.position = b.position) (h2 : a.target = b.target)
    (h3 : a.serialLineBuffer = b.serialLineBuffer)
    (h4 : a.lastServoStepMillis = b.lastServoStepMillis) (h5 : a.writes = b.writes) :
    a = b := by
  cases a
  cases b
  simp only [] at h1 h2 h3 h4 h5
  subst h1 h2 h3 h4 h5
  rfl

/-- C18. Line processing is idempotent: for every line and every starting state,
`handleSerialLine` called twice in succession on the line gives exactly the state,
targets and positions included, that one call gives. -/
theorem line_processing_idempotent (s : State) (line : List Char) :
    handleSerialLine (handleSerialLine s line) line = handleSerialLine s line := by
  obtain ⟨f1, f2, f3, f4⟩ := handleSerialLine_frame (handleSerialLine s line) line
  apply state_ext _ _ f1 _ f3 f4 f2
  funext i
  rw [handleSerialLine_tokens (handleSerialLine s line) line, foldl_handleToken_target,
    handleSerialLine_tokens s line, foldl_handleToken_target]
  cases lastUpdate i (lineTokens line) with
  | some a => rfl
  | none => rfl

/-! ## Segments as text and the tokens of the code -/

end Braccio
